import Mathlib

/-!
Shallow embedding of the limit order book matching engine from
`src/cpp/order_book_simulator/orderbook.cpp`.

Prices (C++ `double`) are modelled as rationals: the engine only ever
compares prices for order and equality (there is no price arithmetic on
any path modelled here), and the decimal literals involved map
monotonically and injectively onto ℚ, so every comparison agrees with
the C++ one.  Quantities and ids (C++ `uint64_t`) are modelled as ℕ:
the only arithmetic on them is `min`, subtraction bounded by `min`, and
increment, none of which can wrap at reachable magnitudes.

A `std::map` is embedded as its list of entries in iteration order, so
the head of the list is `begin()`.  Note the comparators of the source:
`bids` is declared with the default `std::less<double>` (iteration order
is ascending, `begin()` is the lowest price) and `asks` is declared with
`std::greater<double>` (iteration order is descending, `begin()` is the
highest price).

The C++ stores resting orders behind `shared_ptr`s aliased between the
price-level queues and the id index `order_map`; the only fields ever
read through `order_map` are the immutable `side` and `price`, so the
index is embedded as a list of `(id, side, price)` triples and in-book
mutation acts on the queue entries directly.  Object identity (pointer
equality) is represented by `order_id`, which is unique among resting
orders.
-/

namespace OBook

inductive Side where
  | BUY
  | SELL
  deriving DecidableEq

inductive OrderType where
  | LIMIT
  | MARKET
  deriving DecidableEq

/-- Order record.  The mutable `quantity` field is threaded
functionally; the C++ timestamp is informational only (never read by
the engine) and is omitted. -/
structure Order where
  order_id : Nat
  side : Side
  type : OrderType
  price : ℚ
  quantity : Nat
  deriving DecidableEq

/-- Trade execution record (timestamp omitted as above). -/
structure Trade where
  buy_order_id : Nat
  sell_order_id : Nat
  price : ℚ
  quantity : Nat
  deriving DecidableEq

/-- One price level: the map key and the FIFO queue of resting orders. -/
abbrev Level : Type := ℚ × List Order

/-- One side of the book: the entries of a `std::map` in iteration
order; the head of the list is `begin()`. -/
abbrev BookSide : Type := List Level

/-- `std::less<double>`, the comparator of the `bids` map. -/
def lessComp (a b : ℚ) : Bool := decide (a < b)

/-- `std::greater<double>`, the comparator of the `asks` map. -/
def greaterComp (a b : ℚ) : Bool := decide (b < a)

/-- `side[price].push_back(order)`: find the level whose key is
comparator-equivalent to `p`, creating it at its position in iteration
order if absent, and append `o` to the tail of its queue. -/
def insertOrder (lt : ℚ → ℚ → Bool) (p : ℚ) (o : Order) : BookSide → BookSide
  | [] => [(p, [o])]
  | (q, os) :: rest =>
    if lt p q then (p, [o]) :: (q, os) :: rest
    else if lt q p then (q, os) :: insertOrder lt p o rest
    else (q, os ++ [o]) :: rest

/-- Result of the inner matching loop over a single level queue. -/
structure QueueRes where
  qty : Nat
  queue : List Order
  trades : List Trade
  filledIds : List Nat
  deriving DecidableEq

/-- Result of the outer matching loop over the passive side. -/
structure MatchRes where
  qty : Nat
  levels : BookSide
  trades : List Trade
  filledIds : List Nat
  deriving DecidableEq

/-- Build a trade record; the source writes the aggressor id into the
slot of its own side and the resting order's id into the other slot. -/
def mkTrade (aggSide : Side) (aggId passId : Nat) (p : ℚ) (q : Nat) : Trade :=
  match aggSide with
  | .BUY => ⟨aggId, passId, p, q⟩
  | .SELL => ⟨passId, aggId, p, q⟩

/-- Inner loop, repeated verbatim in all four matchers of the source:
while the queue is non-empty and the incoming order has quantity left,
fill against the head of the queue, emit a trade at the level price,
pop fully filled resting orders and record their ids for erasure from
`order_map`. -/
def matchQueue (aggSide : Side) (aggId : Nat) (p : ℚ) (qty : Nat) :
    List Order → QueueRes
  | [] => ⟨qty, [], [], []⟩
  | o :: rest =>
    if qty = 0 then ⟨qty, o :: rest, [], []⟩
    else
      let tq := min qty o.quantity
      let t := mkTrade aggSide aggId o.order_id p tq
      if o.quantity ≤ qty then
        let r := matchQueue aggSide aggId p (qty - tq) rest
        ⟨r.qty, r.queue, t :: r.trades, o.order_id :: r.filledIds⟩
      else
        ⟨0, { o with quantity := o.quantity - tq } :: rest, [t], []⟩

/-- Outer loop of the four matchers: while the passive side is
non-empty and quantity remains, take `begin()`, apply the limit price
gate if any (`break` when it fails; market orders have no gate), run
the inner loop, and erase the level when its queue empties. -/
def matchLoop (aggSide : Side) (gate : ℚ → Bool) (aggId : Nat) (qty : Nat) :
    BookSide → MatchRes
  | [] => ⟨qty, [], [], []⟩
  | (p, os) :: rest =>
    if qty = 0 then ⟨qty, (p, os) :: rest, [], []⟩
    else if gate p then
      let r := matchQueue aggSide aggId p qty os
      if r.queue.isEmpty then
        let r2 := matchLoop aggSide gate aggId r.qty rest
        ⟨r2.qty, r2.levels, r.trades ++ r2.trades, r.filledIds ++ r2.filledIds⟩
      else ⟨r.qty, (p, r.queue) :: rest, r.trades, r.filledIds⟩
    else ⟨qty, (p, os) :: rest, [], []⟩

/-- The engine state: the two sides in map iteration order, the id
index (restricted to the fields the source ever reads through it), the
trade log and the counters. -/
structure OrderBook where
  bids : BookSide
  asks : BookSide
  order_map : List (Nat × Side × ℚ)
  trade_history : List Trade
  next_order_id : Nat
  total_orders_processed : Nat
  total_trades : Nat
  deriving DecidableEq

def OrderBook.empty : OrderBook := ⟨[], [], [], [], 1, 0, 0⟩

/-- `order_map.erase(id)` for each id fully filled during matching. -/
def eraseIds (ids : List Nat) (m : List (Nat × Side × ℚ)) : List (Nat × Side × ℚ) :=
  m.filter (fun e => !(ids.contains e.1))

/-- `OrderBook::matchMarketBuy`: sweep the ask side from `asks.begin()`
while quantity remains; the caller discards the residual. -/
def matchMarketBuy (b : OrderBook) (aggId : Nat) (qty : Nat) : OrderBook × Nat :=
  let r := matchLoop .BUY (fun _ => true) aggId qty b.asks
  ({ b with asks := r.levels,
            order_map := eraseIds r.filledIds b.order_map,
            trade_history := b.trade_history ++ r.trades,
            total_trades := b.total_trades + r.trades.length }, r.qty)

/-- `OrderBook::matchMarketSell`: sweep the bid side from
`bids.begin()` while quantity remains. -/
def matchMarketSell (b : OrderBook) (aggId : Nat) (qty : Nat) : OrderBook × Nat :=
  let r := matchLoop .SELL (fun _ => true) aggId qty b.bids
  ({ b with bids := r.levels,
            order_map := eraseIds r.filledIds b.order_map,
            trade_history := b.trade_history ++ r.trades,
            total_trades := b.total_trades + r.trades.length }, r.qty)

/-- The price gate of `matchLimitBuy`: the source breaks out of the
loop when `order->price < best_ask`. -/
def buyGate (price : ℚ) : ℚ → Bool := fun best_ask => !(decide (price < best_ask))

/-- The price gate of `matchLimitSell`: the source breaks out of the
loop when `order->price > best_bid`. -/
def sellGate (price : ℚ) : ℚ → Bool := fun best_bid => !(decide (best_bid < price))

/-- `OrderBook::matchLimitBuy`: match against `asks.begin()` while the
gate holds, then rest any residual on the bid side and register it in
`order_map`. -/
def matchLimitBuy (b : OrderBook) (aggId : Nat) (price : ℚ) (qty : Nat) : OrderBook × Nat :=
  let r := matchLoop .BUY (buyGate price) aggId qty b.asks
  let b1 := { b with asks := r.levels,
                     order_map := eraseIds r.filledIds b.order_map,
                     trade_history := b.trade_history ++ r.trades,
                     total_trades := b.total_trades + r.trades.length }
  if 0 < r.qty then
    ({ b1 with bids := insertOrder lessComp price ⟨aggId, .BUY, .LIMIT, price, r.qty⟩ b1.bids,
               order_map := b1.order_map ++ [(aggId, Side.BUY, price)] }, r.qty)
  else (b1, 0)

/-- `OrderBook::matchLimitSell`: match against `bids.begin()` while the
gate holds, then rest any residual on the ask side and register it in
`order_map`. -/
def matchLimitSell (b : OrderBook) (aggId : Nat) (price : ℚ) (qty : Nat) : OrderBook × Nat :=
  let r := matchLoop .SELL (sellGate price) aggId qty b.bids
  let b1 := { b with bids := r.levels,
                     order_map := eraseIds r.filledIds b.order_map,
                     trade_history := b.trade_history ++ r.trades,
                     total_trades := b.total_trades + r.trades.length }
  if 0 < r.qty then
    ({ b1 with asks := insertOrder greaterComp price ⟨aggId, .SELL, .LIMIT, price, r.qty⟩ b1.asks,
               order_map := b1.order_map ++ [(aggId, Side.SELL, price)] }, r.qty)
  else (b1, 0)

/-- Result of `addOrder`, with the aggressor's residual quantity at
loop exit kept visible (the C++ `order->quantity`; the engine discards
it for market orders). -/
structure AddRes where
  id : Nat
  leftover : Nat
  book : OrderBook
  deriving DecidableEq

/-- `OrderBook::addOrder`: create the order with `next_order_id++`,
bump `total_orders_processed`, dispatch on kind and side, and return
the assigned id.  There is no validation of price or quantity. -/
def addOrderFull (b : OrderBook) (sd : Side) (ty : OrderType) (price : ℚ) (qty : Nat) :
    AddRes :=
  let id := b.next_order_id
  let b0 := { b with next_order_id := id + 1,
                     total_orders_processed := b.total_orders_processed + 1 }
  match ty, sd with
  | .MARKET, .BUY => let r := matchMarketBuy b0 id qty; ⟨id, r.2, r.1⟩
  | .MARKET, .SELL => let r := matchMarketSell b0 id qty; ⟨id, r.2, r.1⟩
  | .LIMIT, .BUY => let r := matchLimitBuy b0 id price qty; ⟨id, r.2, r.1⟩
  | .LIMIT, .SELL => let r := matchLimitSell b0 id price qty; ⟨id, r.2, r.1⟩

/-- `addOrder` as the caller sees it: the assigned id and the new state. -/
def addOrder (b : OrderBook) (sd : Side) (ty : OrderType) (price : ℚ) (qty : Nat) :
    Nat × OrderBook :=
  let r := addOrderFull b sd ty price qty
  (r.id, r.book)

/-- Remove order `oid` from the level keyed `p` on one side (the
source's `side[price]` followed by erase-remove and empty-level
erasure).  A key absent from the side leaves it unchanged: the C++
`operator[]` would create an empty level and at once erase it again. -/
def removeFromSide (p : ℚ) (oid : Nat) : BookSide → BookSide
  | [] => []
  | (q, os) :: rest =>
    if q = p then
      let os2 := os.filter (fun o => !(o.order_id == oid))
      if os2.isEmpty then rest else (q, os2) :: rest
    else (q, os) :: removeFromSide p oid rest

/-- `OrderBook::cancelOrder`: look the id up in `order_map`; on a miss
return `false` without mutation, otherwise remove the order from its
price level (via the side and price read through the index), erase the
index entry and return `true`. -/
def cancelOrder (b : OrderBook) (oid : Nat) : Bool × OrderBook :=
  match b.order_map.find? (fun e => e.1 == oid) with
  | none => (false, b)
  | some e =>
    match e.2.1 with
    | .BUY =>
      (true, { b with bids := removeFromSide e.2.2 oid b.bids,
                      order_map := b.order_map.eraseP (fun x => x.1 == oid) })
    | .SELL =>
      (true, { b with asks := removeFromSide e.2.2 oid b.asks,
                      order_map := b.order_map.eraseP (fun x => x.1 == oid) })

/-- `OrderBook::getBestBid`: `bids.empty() ? 0.0 : bids.begin()->first`. -/
def getBestBid (b : OrderBook) : ℚ :=
  match b.bids with
  | [] => 0
  | (p, _) :: _ => p

/-- `OrderBook::getBestAsk`: `asks.empty() ? 0.0 : asks.begin()->first`. -/
def getBestAsk (b : OrderBook) : ℚ :=
  match b.asks with
  | [] => 0
  | (p, _) :: _ => p

/-- `OrderBook::getMidPrice`. -/
def getMidPrice (b : OrderBook) : ℚ :=
  if b.bids = [] ∨ b.asks = [] then 0 else (getBestBid b + getBestAsk b) / 2

/-- `OrderBook::getSpread`. -/
def getSpread (b : OrderBook) : ℚ :=
  if b.bids = [] ∨ b.asks = [] then 0 else getBestAsk b - getBestBid b

/-- A command submitted to the engine. -/
inductive Command where
  | add (sd : Side) (ty : OrderType) (price : ℚ) (qty : Nat)
  | cancel (oid : Nat)

/-- One command processed against the book. -/
def step (b : OrderBook) : Command → OrderBook
  | .add sd ty p q => (addOrderFull b sd ty p q).book
  | .cancel oid => (cancelOrder b oid).2

/-- The engine state after a command sequence from the empty book. -/
def run (cmds : List Command) : OrderBook := cmds.foldl step OrderBook.empty

/-- Engine states that actually arise in a session. -/
def Reachable (b : OrderBook) : Prop := ∃ cmds, run cmds = b

/-! Concrete command sequences used to evaluate the engine. -/

/-- C2's scenario: the five resting asks of the spec and the demo
driver, followed by a market buy for 250. -/
def c2Cmds : List Command :=
  [.add .SELL .LIMIT (mkRat 10050 100) 100, .add .SELL .LIMIT (mkRat 10060 100) 150,
   .add .SELL .LIMIT (mkRat 10070 100) 200, .add .SELL .LIMIT (mkRat 10080 100) 175,
   .add .SELL .LIMIT (mkRat 10090 100) 125, .add .BUY .MARKET 0 250]

/-- Two passive bids at distinct prices (no ask side). -/
def c1BidCmds : List Command :=
  [.add .BUY .LIMIT (mkRat 10030 100) 180, .add .BUY .LIMIT (mkRat 10040 100) 120]

/-- Two passive asks at distinct prices (no bid side). -/
def c1AskCmds : List Command :=
  [.add .SELL .LIMIT (mkRat 10050 100) 100, .add .SELL .LIMIT (mkRat 10070 100) 200]

/-- Two resting asks, then a limit buy priced between them. -/
def c3Cmds : List Command :=
  [.add .SELL .LIMIT (mkRat 10050 100) 100, .add .SELL .LIMIT (mkRat 10070 100) 100,
   .add .BUY .LIMIT (mkRat 10060 100) 50]

/-- Two resting asks, then a limit buy priced exactly at the lowest. -/
def c5Cmds : List Command :=
  [.add .SELL .LIMIT (mkRat 10050 100) 100, .add .SELL .LIMIT (mkRat 10070 100) 100,
   .add .BUY .LIMIT (mkRat 10050 100) 10]

/-- C1: the claim that `getBestBid` returns the highest resting buy
price and `getBestAsk` the lowest resting sell price FAILS on the
code: `bids` is a `std::map` with the default `std::less` comparator,
so `bids.begin()` is the LOWEST bid, and `asks` uses `std::greater`,
so `asks.begin()` is the HIGHEST ask.  With resting bids at 100.30 and
100.40 the code returns 100.30; with resting asks at 100.50 and 100.70
it returns 100.70. -/
theorem C1_best_accessors_return_wrong_extreme :
    getBestBid (run c1BidCmds) = (mkRat 10030 100)
  ∧ (mkRat 10040 100) ∈ (run c1BidCmds).bids.map Prod.fst
  ∧ (mkRat 10030 100) < (mkRat 10040 100)
  ∧ getBestAsk (run c1AskCmds) = (mkRat 10070 100)
  ∧ (mkRat 10050 100) ∈ (run c1AskCmds).asks.map Prod.fst
  ∧ (mkRat 10050 100) < (mkRat 10070 100) := by decide

/-- C2: the claim FAILS on the code: against resting asks
(100.50,100), (100.60,150), (100.70,200), (100.80,175), (100.90,125) a
Buy Market 250 matches from `asks.begin()`, which under `std::greater`
is the HIGHEST ask, so it emits 125 at 100.90 and then 125 at 100.80,
and the best ask reported afterwards is 100.80 — not the claimed 100
at 100.50, 150 at 100.60 with best ask 100.70. -/
theorem C2_market_buy_sweeps_from_highest_ask :
    (run c2Cmds).trade_history =
      [⟨6, 5, (mkRat 10090 100), 125⟩, ⟨6, 4, (mkRat 10080 100), 125⟩]
  ∧ getBestAsk (run c2Cmds) = (mkRat 10080 100) := by decide

/-- C3: the no-crossed-book claim FAILS on the code: with resting asks
at 100.50 and 100.70, an incoming limit buy at 100.60 is price-gated
against `asks.begin()` = 100.70 (the highest ask), does not match, and
rests — leaving a book whose highest bid 100.60 is not below its
lowest ask 100.50. -/
theorem C3_book_becomes_crossed :
    (run c3Cmds).trade_history = []
  ∧ (mkRat 10060 100) ∈ (run c3Cmds).bids.map Prod.fst
  ∧ (mkRat 10050 100) ∈ (run c3Cmds).asks.map Prod.fst
  ∧ ¬ (mkRat 10060 100) < (mkRat 10050 100) := by decide

/-- C5: the inclusive-cross claim FAILS on the code: with resting asks
at 100.50 and 100.70 (so the lowest ask is 100.50), a limit buy priced
exactly at 100.50 is gated against `asks.begin()` = 100.70, produces
no trade at all, and rests on the bid side. -/
theorem C5_equal_price_limit_produces_no_trade :
    (run (c5Cmds.take 2)).asks.map Prod.fst = [(mkRat 10070 100), (mkRat 10050 100)]
  ∧ (run c5Cmds).trade_history = []
  ∧ (mkRat 10050 100) ∈ (run c5Cmds).bids.map Prod.fst := by decide

/-- C4 counterexample: the claim that quantity-0 or non-positive-price
orders are rejected with no id assignment and no mutation FAILS:
`addOrder` performs no validation.  A quantity-0 limit buy from the
empty book is assigned id 1 and consumes it, and a limit buy at price
-5 mutates the book (it rests at level -5). -/
theorem C4_counterexample_no_rejection :
    (addOrder OrderBook.empty .BUY .LIMIT 100 0).1 = 1
  ∧ (addOrder OrderBook.empty .BUY .LIMIT 100 0).2.next_order_id = 2
  ∧ (addOrder OrderBook.empty .BUY .LIMIT (-5) 10).2.bids ≠ [] := by decide

/-- The matching loop is the identity when the incoming quantity is 0
(the while condition fails at once). -/
theorem matchLoop_zero (aggSide : Side) (gate : ℚ → Bool) (aggId : Nat) (ls : BookSide) :
    matchLoop aggSide gate aggId 0 ls = ⟨0, ls, [], []⟩ := by
  cases ls with
  | nil => rfl
  | cons hd tl => cases hd; simp [matchLoop]

/-- Erasing an empty id set from the index is the identity. -/
theorem eraseIds_nil (m : List (Nat × Side × ℚ)) : eraseIds [] m = m := by
  simp [eraseIds]

/-- C4 amended: `addOrder` performs no input validation.  A quantity-0
order of any kind and side is accepted and assigned the next order id
(the id counter and the processed-order counter advance) but emits no
trade and leaves the book sides, the order index and the trade log
unchanged; and a limit order with non-positive price is accepted and
processed like any other limit order — from the empty book a limit buy
at price -5 for quantity 10 rests at price level -5 under id 1. -/
theorem C4_add_order_never_rejects (b : OrderBook) (sd : Side) (ty : OrderType) (p : ℚ) :
    addOrder b sd ty p 0 =
      (b.next_order_id,
       { b with next_order_id := b.next_order_id + 1,
                total_orders_processed := b.total_orders_processed + 1 })
  ∧ (addOrder OrderBook.empty .BUY .LIMIT (-5) 10).2.bids
      = [(-5, [⟨1, .BUY, .LIMIT, -5, 10⟩])] := by
  constructor
  · cases ty <;> cases sd <;>
      simp [addOrder, addOrderFull, matchMarketBuy, matchMarketSell,
            matchLimitBuy, matchLimitSell, matchLoop_zero, eraseIds_nil]
  · decide

/-! Measures used by the invariants and the quantified claims. -/

/-- Sum of the quantities of a list of trades. -/
def sumQ (ts : List Trade) : Nat := (ts.map Trade.quantity).sum

/-- Sum of the quantities of the trades naming an order id on either
slot (each order id occurs in at most one slot of a trade). -/
def tradesQtyNaming (oid : Nat) (ts : List Trade) : Nat :=
  ((ts.filter (fun t => t.buy_order_id == oid || t.sell_order_id == oid)).map
    Trade.quantity).sum

/-- Total quantity carried under an id in a list of orders. -/
def ordersQty (oid : Nat) (l : List Order) : Nat :=
  ((l.filter (fun o => o.order_id == oid)).map Order.quantity).sum

/-- All orders resting on one side, in book iteration order. -/
def sideOrders (s : BookSide) : List Order := (s.map Prod.snd).flatten

/-- All orders resting in the book. -/
def allOrders (b : OrderBook) : List Order := sideOrders b.bids ++ sideOrders b.asks

/-- The ids resting on one side, in book iteration order. -/
def sideIds (s : BookSide) : List Nat := (sideOrders s).map Order.order_id

/-- Total resting quantity under an id in the whole book. -/
def bookQty (oid : Nat) (b : OrderBook) : Nat := ordersQty oid (allOrders b)

/-- Ghost sum of the entries of an (id, quantity) event list naming an id. -/
def removedSum (oid : Nat) (l : List (Nat × Nat)) : Nat :=
  ((l.filter (fun e => e.1 == oid)).map Prod.snd).sum

theorem sumQ_append (t1 t2 : List Trade) : sumQ (t1 ++ t2) = sumQ t1 + sumQ t2 := by
  simp [sumQ]

theorem tradesQtyNaming_append (oid : Nat) (t1 t2 : List Trade) :
    tradesQtyNaming oid (t1 ++ t2) = tradesQtyNaming oid t1 + tradesQtyNaming oid t2 := by
  simp [tradesQtyNaming, List.filter_append]

theorem ordersQty_append (oid : Nat) (l1 l2 : List Order) :
    ordersQty oid (l1 ++ l2) = ordersQty oid l1 + ordersQty oid l2 := by
  simp [ordersQty, List.filter_append]

theorem ordersQty_cons (oid : Nat) (o : Order) (l : List Order) :
    ordersQty oid (o :: l) =
      (if o.order_id = oid then o.quantity else 0) + ordersQty oid l := by
  by_cases h : o.order_id = oid <;> simp [ordersQty, List.filter_cons, h]

theorem removedSum_append (oid : Nat) (l1 l2 : List (Nat × Nat)) :
    removedSum oid (l1 ++ l2) = removedSum oid l1 + removedSum oid l2 := by
  simp [removedSum, List.filter_append]

theorem ordersQty_eq_zero (oid : Nat) (l : List Order)
    (h : ∀ o ∈ l, o.order_id ≠ oid) : ordersQty oid l = 0 := by
  induction l with
  | nil => rfl
  | cons o rest ih =>
    rw [ordersQty_cons, if_neg (h o (by simp)), Nat.zero_add]
    exact ih fun o ho => h o (by simp [ho])

theorem tradesQtyNaming_cons (oid : Nat) (t : Trade) (ts : List Trade) :
    tradesQtyNaming oid (t :: ts) =
      (if (t.buy_order_id == oid || t.sell_order_id == oid) = true then t.quantity else 0)
        + tradesQtyNaming oid ts := by
  simp only [tradesQtyNaming, List.filter_cons]
  split <;> simp

theorem tradesQtyNaming_eq_zero (oid : Nat) (ts : List Trade)
    (h : ∀ t ∈ ts, t.buy_order_id ≠ oid ∧ t.sell_order_id ≠ oid) :
    tradesQtyNaming oid ts = 0 := by
  induction ts with
  | nil => rfl
  | cons t rest ih =>
    have h1 := h t (by simp)
    have : (t.buy_order_id == oid || t.sell_order_id == oid) = false := by
      simp [h1.1, h1.2]
    simp only [tradesQtyNaming, List.filter_cons, this]
    exact ih fun t ht => h t (by simp [ht])

theorem tradesQtyNaming_eq_sumQ (aggId : Nat) (ts : List Trade)
    (h : ∀ t ∈ ts, t.buy_order_id = aggId ∨ t.sell_order_id = aggId) :
    tradesQtyNaming aggId ts = sumQ ts := by
  induction ts with
  | nil => rfl
  | cons t rest ih =>
    have h1 := h t (by simp)
    have hb : (t.buy_order_id == aggId || t.sell_order_id == aggId) = true := by
      rcases h1 with h1 | h1 <;> simp [h1]
    have hrest := ih fun t ht => h t (by simp [ht])
    rw [tradesQtyNaming_cons, if_pos hb, hrest]
    simp [sumQ]

/-! Facts about the inner matching loop. -/

theorem mkTrade_quantity (aggSide : Side) (aggId passId : Nat) (p : ℚ) (q : Nat) :
    (mkTrade aggSide aggId passId p q).quantity = q := by
  cases aggSide <;> rfl

theorem mkTrade_price (aggSide : Side) (aggId passId : Nat) (p : ℚ) (q : Nat) :
    (mkTrade aggSide aggId passId p q).price = p := by
  cases aggSide <;> rfl

theorem mkTrade_slots (aggSide : Side) (aggId passId : Nat) (p : ℚ) (q : Nat) :
    ((mkTrade aggSide aggId passId p q).buy_order_id = aggId
      ∧ (mkTrade aggSide aggId passId p q).sell_order_id = passId)
  ∨ ((mkTrade aggSide aggId passId p q).buy_order_id = passId
      ∧ (mkTrade aggSide aggId passId p q).sell_order_id = aggId) := by
  cases aggSide
  · exact Or.inl ⟨rfl, rfl⟩
  · exact Or.inr ⟨rfl, rfl⟩

/-- The ids of a matched queue split into the popped (fully filled)
prefix and the ids of the surviving queue. -/
theorem matchQueue_ids (aggSide : Side) (aggId : Nat) (p : ℚ) (qty : Nat) (os : List Order) :
    os.map Order.order_id =
      (matchQueue aggSide aggId p qty os).filledIds
        ++ (matchQueue aggSide aggId p qty os).queue.map Order.order_id := by
  induction os generalizing qty with
  | nil => simp [matchQueue]
  | cons o rest ih =>
    by_cases h0 : qty = 0
    · simp [matchQueue, h0]
    · by_cases hle : o.quantity ≤ qty
      · simp only [matchQueue, if_neg h0, if_pos hle, List.map_cons, List.cons_append]
        exact congrArg (o.order_id :: ·) (ih (qty - min qty o.quantity))
      · simp [matchQueue, if_neg h0, if_neg hle]

/-- Aggressor-side conservation through one queue: surviving quantity
plus the total traded quantity equals the incoming quantity. -/
theorem matchQueue_qty (aggSide : Side) (aggId : Nat) (p : ℚ) (qty : Nat) (os : List Order) :
    (matchQueue aggSide aggId p qty os).qty
      + sumQ (matchQueue aggSide aggId p qty os).trades = qty := by
  induction os generalizing qty with
  | nil => simp [matchQueue, sumQ]
  | cons o rest ih =>
    by_cases h0 : qty = 0
    · simp [matchQueue, h0, sumQ]
    · by_cases hle : o.quantity ≤ qty
      · have hmin : min qty o.quantity = o.quantity := Nat.min_eq_right hle
        have := ih (qty - min qty o.quantity)
        simp only [matchQueue, if_neg h0, if_pos hle, sumQ, List.map_cons, List.sum_cons,
          mkTrade_quantity] at this ⊢
        omega
      · have hmin : min qty o.quantity = qty := Nat.min_eq_left (by omega)
        simp [matchQueue, if_neg h0, if_neg hle, sumQ, mkTrade_quantity, hmin]

/-- Passive-side conservation through one queue, per order id distinct
from the aggressor: resting quantity before equals resting quantity
after plus the traded quantity naming that id. -/
theorem matchQueue_passive (aggSide : Side) (aggId : Nat) (p : ℚ) (qty : Nat)
    (os : List Order) (oid : Nat) (hne : aggId ≠ oid) :
    ordersQty oid os =
      ordersQty oid (matchQueue aggSide aggId p qty os).queue
        + tradesQtyNaming oid (matchQueue aggSide aggId p qty os).trades := by
  have hnm : ∀ pid q, ((mkTrade aggSide aggId pid p q).buy_order_id == oid
      || (mkTrade aggSide aggId pid p q).sell_order_id == oid) = (pid == oid) := by
    intro pid q
    cases aggSide <;> simp [mkTrade, hne]
  induction os generalizing qty with
  | nil => simp [matchQueue, tradesQtyNaming]
  | cons o rest ih =>
    by_cases h0 : qty = 0
    · simp [matchQueue, h0, tradesQtyNaming]
    · by_cases hle : o.quantity ≤ qty
      · have hmin : min qty o.quantity = o.quantity := Nat.min_eq_right hle
        have hi := ih (qty - o.quantity)
        simp only [matchQueue, if_neg h0, if_pos hle]
        rw [ordersQty_cons, tradesQtyNaming_cons, hnm, hmin, mkTrade_quantity, hi]
        by_cases hid : o.order_id = oid
        · rw [if_pos hid, if_pos (by simp [hid])]
          omega
        · rw [if_neg hid, if_neg (by simp [hid])]
          omega
      · have hmin : min qty o.quantity = qty := Nat.min_eq_left (by omega)
        simp only [matchQueue, if_neg h0, if_neg hle]
        rw [ordersQty_cons, ordersQty_cons, tradesQtyNaming_cons, hnm, hmin,
          mkTrade_quantity]
        simp only [tradesQtyNaming]
        by_cases hid : o.order_id = oid
        · rw [if_pos hid, if_pos hid, if_pos (by simp [hid])]
          simp only [List.filter_nil, List.map_nil, List.sum_nil]
          omega
        · rw [if_neg hid, if_neg hid, if_neg (by simp [hid])]
          simp

/-- Every trade produced by one queue names a resting order of that
queue in its passive slot and carries the level price. -/
theorem matchQueue_trades (aggSide : Side) (aggId : Nat) (p : ℚ) (qty : Nat)
    (os : List Order) :
    ∀ t ∈ (matchQueue aggSide aggId p qty os).trades,
      ∃ o ∈ os, t = mkTrade aggSide aggId o.order_id p t.quantity := by
  induction os generalizing qty with
  | nil => simp [matchQueue]
  | cons o rest ih =>
    by_cases h0 : qty = 0
    · simp [matchQueue, h0]
    · by_cases hle : o.quantity ≤ qty
      · simp only [matchQueue, if_neg h0, if_pos hle, List.mem_cons]
        intro t ht
        rcases ht with rfl | ht
        · exact ⟨o, by simp, by rw [mkTrade_quantity]⟩
        · obtain ⟨o1, ho1, he⟩ := ih (qty - min qty o.quantity) t ht
          exact ⟨o1, by simp [ho1], he⟩
      · simp only [matchQueue, if_neg h0, if_neg hle, List.mem_singleton]
        intro t ht
        subst ht
        exact ⟨o, by simp, by rw [mkTrade_quantity]⟩

/-- Orders surviving one queue keep their identity fields. -/
theorem matchQueue_queue_mem (aggSide : Side) (aggId : Nat) (p : ℚ) (qty : Nat)
    (os : List Order) :
    ∀ o1 ∈ (matchQueue aggSide aggId p qty os).queue, ∃ o ∈ os,
      o1.order_id = o.order_id ∧ o1.price = o.price ∧ o1.side = o.side
        ∧ o1.type = o.type := by
  induction os generalizing qty with
  | nil => simp [matchQueue]
  | cons o rest ih =>
    by_cases h0 : qty = 0
    · intro o1 ho1
      simp only [matchQueue, if_pos h0] at ho1
      exact ⟨o1, ho1, rfl, rfl, rfl, rfl⟩
    · by_cases hle : o.quantity ≤ qty
      · simp only [matchQueue, if_neg h0, if_pos hle]
        intro o1 ho1
        obtain ⟨o2, ho2, he⟩ := ih (qty - min qty o.quantity) o1 ho1
        exact ⟨o2, by simp [ho2], he⟩
      · simp only [matchQueue, if_neg h0, if_neg hle, List.mem_cons]
        intro o1 ho1
        rcases ho1 with rfl | ho1
        · exact ⟨o, by simp, rfl, rfl, rfl, rfl⟩
        · exact ⟨o1, by simp [ho1], rfl, rfl, rfl, rfl⟩

/-- Orders surviving one queue have positive quantity if all incoming
ones did (a partially filled head keeps its positive remainder). -/
theorem matchQueue_queue_pos (aggSide : Side) (aggId : Nat) (p : ℚ) (qty : Nat)
    (os : List Order) (h : ∀ o ∈ os, 0 < o.quantity) :
    ∀ o1 ∈ (matchQueue aggSide aggId p qty os).queue, 0 < o1.quantity := by
  induction os generalizing qty with
  | nil => simp [matchQueue]
  | cons o rest ih =>
    by_cases h0 : qty = 0
    · intro o1 ho1
      simp only [matchQueue, if_pos h0] at ho1
      exact h o1 ho1
    · by_cases hle : o.quantity ≤ qty
      · simp only [matchQueue, if_neg h0, if_pos hle]
        exact ih (qty - min qty o.quantity) fun o2 ho2 => h o2 (by simp [ho2])
      · simp only [matchQueue, if_neg h0, if_neg hle, List.mem_cons]
        intro o1 ho1
        rcases ho1 with rfl | ho1
        · have : min qty o.quantity = qty := Nat.min_eq_left (by omega)
          simp only [this]
          omega
        · exact h o1 (by simp [ho1])

/-! Facts about the outer matching loop. -/

theorem sideOrders_cons (lv : Level) (rest : BookSide) :
    sideOrders (lv :: rest) = lv.2 ++ sideOrders rest := by
  simp [sideOrders]

theorem sideIds_cons (lv : Level) (rest : BookSide) :
    sideIds (lv :: rest) = lv.2.map Order.order_id ++ sideIds rest := by
  simp [sideIds, sideOrders_cons]

/-- The resting ids of a matched side split into the fully filled ids,
in fill order, and the surviving resting ids. -/
theorem matchLoop_ids (aggSide : Side) (gate : ℚ → Bool) (aggId : Nat) (qty : Nat)
    (ls : BookSide) :
    sideIds ls = (matchLoop aggSide gate aggId qty ls).filledIds
      ++ sideIds (matchLoop aggSide gate aggId qty ls).levels := by
  induction ls generalizing qty with
  | nil => simp [matchLoop]
  | cons lv rest ih =>
    obtain ⟨p, os⟩ := lv
    by_cases h0 : qty = 0
    · simp [matchLoop, h0]
    · by_cases hg : gate p = true
      · simp only [matchLoop, if_neg h0, hg, if_true]
        by_cases hq : (matchQueue aggSide aggId p qty os).queue.isEmpty = true
        · rw [List.isEmpty_iff] at hq
          simp only [hq, List.isEmpty_nil, if_true, sideIds_cons]
          have h1 := matchQueue_ids aggSide aggId p qty os
          rw [hq] at h1
          simp only [List.map_nil, List.append_nil] at h1
          rw [h1, ih (matchQueue aggSide aggId p qty os).qty, List.append_assoc]
        · simp only [if_neg hq, sideIds_cons]
          rw [matchQueue_ids aggSide aggId p qty os, List.append_assoc]
      · simp [matchLoop, if_neg h0, hg]

/-- Aggressor-side conservation through the whole loop. -/
theorem matchLoop_qty (aggSide : Side) (gate : ℚ → Bool) (aggId : Nat) (qty : Nat)
    (ls : BookSide) :
    (matchLoop aggSide gate aggId qty ls).qty
      + sumQ (matchLoop aggSide gate aggId qty ls).trades = qty := by
  induction ls generalizing qty with
  | nil => simp [matchLoop, sumQ]
  | cons lv rest ih =>
    obtain ⟨p, os⟩ := lv
    by_cases h0 : qty = 0
    · simp [matchLoop, h0, sumQ]
    · by_cases hg : gate p = true
      · simp only [matchLoop, if_neg h0, hg, if_true]
        by_cases hq : (matchQueue aggSide aggId p qty os).queue.isEmpty = true
        · simp only [hq, if_true, sumQ_append]
          have h1 := matchQueue_qty aggSide aggId p qty os
          have h2 := ih (matchQueue aggSide aggId p qty os).qty
          omega
        · simp only [if_neg hq]
          exact matchQueue_qty aggSide aggId p qty os
      · simp [matchLoop, if_neg h0, hg, sumQ]

/-- Passive-side conservation through the whole loop, per order id
distinct from the aggressor. -/
theorem matchLoop_passive (aggSide : Side) (gate : ℚ → Bool) (aggId : Nat) (qty : Nat)
    (ls : BookSide) (oid : Nat) (hne : aggId ≠ oid) :
    ordersQty oid (sideOrders ls) =
      ordersQty oid (sideOrders (matchLoop aggSide gate aggId qty ls).levels)
        + tradesQtyNaming oid (matchLoop aggSide gate aggId qty ls).trades := by
  induction ls generalizing qty with
  | nil => simp [matchLoop, tradesQtyNaming]
  | cons lv rest ih =>
    obtain ⟨p, os⟩ := lv
    by_cases h0 : qty = 0
    · simp [matchLoop, h0, tradesQtyNaming]
    · by_cases hg : gate p = true
      · simp only [matchLoop, if_neg h0, hg, if_true]
        by_cases hq : (matchQueue aggSide aggId p qty os).queue.isEmpty = true
        · rw [List.isEmpty_iff] at hq
          simp only [hq, List.isEmpty_nil, if_true, sideOrders_cons, ordersQty_append,
            tradesQtyNaming_append]
          have h1 := matchQueue_passive aggSide aggId p qty os oid hne
          rw [hq] at h1
          simp only [ordersQty, List.filter_nil, List.map_nil, List.sum_nil,
            Nat.zero_add] at h1
          have h2 := ih (matchQueue aggSide aggId p qty os).qty
          simp only [ordersQty] at h1 h2 ⊢
          omega
        · simp only [if_neg hq, sideOrders_cons, ordersQty_append]
          have h1 := matchQueue_passive aggSide aggId p qty os oid hne
          omega
      · simp [matchLoop, if_neg h0, hg, tradesQtyNaming]

/-- Every trade produced by the loop names, in its passive slot, an
order resting on the passive side before the call, and carries the
price of the level holding that order. -/
theorem matchLoop_trades (aggSide : Side) (gate : ℚ → Bool) (aggId : Nat) (qty : Nat)
    (ls : BookSide) :
    ∀ t ∈ (matchLoop aggSide gate aggId qty ls).trades,
      ∃ lv ∈ ls, ∃ o ∈ lv.2, t = mkTrade aggSide aggId o.order_id lv.1 t.quantity := by
  induction ls generalizing qty with
  | nil => simp [matchLoop]
  | cons lv rest ih =>
    obtain ⟨p, os⟩ := lv
    by_cases h0 : qty = 0
    · simp [matchLoop, h0]
    · by_cases hg : gate p = true
      · simp only [matchLoop, if_neg h0, hg, if_true]
        by_cases hq : (matchQueue aggSide aggId p qty os).queue.isEmpty = true
        · simp only [hq, if_true, List.mem_append]
          intro t ht
          rcases ht with ht | ht
          · obtain ⟨o, ho, he⟩ := matchQueue_trades aggSide aggId p qty os t ht
            exact ⟨(p, os), by simp, o, ho, he⟩
          · obtain ⟨lv1, hlv1, o, ho, he⟩ :=
              ih (matchQueue aggSide aggId p qty os).qty t ht
            exact ⟨lv1, by simp [hlv1], o, ho, he⟩
        · simp only [if_neg hq]
          intro t ht
          obtain ⟨o, ho, he⟩ := matchQueue_trades aggSide aggId p qty os t ht
          exact ⟨(p, os), by simp, o, ho, he⟩
      · simp [matchLoop, if_neg h0, hg]

/-- Orders surviving the loop keep their identity fields. -/
theorem matchLoop_orders_mem (aggSide : Side) (gate : ℚ → Bool) (aggId : Nat) (qty : Nat)
    (ls : BookSide) :
    ∀ o1 ∈ sideOrders (matchLoop aggSide gate aggId qty ls).levels,
      ∃ o ∈ sideOrders ls, o1.order_id = o.order_id ∧ o1.price = o.price
        ∧ o1.side = o.side ∧ o1.type = o.type := by
  induction ls generalizing qty with
  | nil => simp [matchLoop, sideOrders]
  | cons lv rest ih =>
    obtain ⟨p, os⟩ := lv
    by_cases h0 : qty = 0
    · intro o1 ho1
      rw [matchLoop, if_pos h0] at ho1
      exact ⟨o1, ho1, rfl, rfl, rfl, rfl⟩
    · by_cases hg : gate p = true
      · simp only [matchLoop, if_neg h0, hg, if_true]
        by_cases hq : (matchQueue aggSide aggId p qty os).queue.isEmpty = true
        · simp only [hq, if_true]
          intro o1 ho1
          obtain ⟨o, ho, he⟩ := ih (matchQueue aggSide aggId p qty os).qty o1 ho1
          exact ⟨o, by simp [sideOrders_cons, ho], he⟩
        · simp only [if_neg hq, sideOrders_cons, List.mem_append]
          intro o1 ho1
          rcases ho1 with ho1 | ho1
          · obtain ⟨o, ho, he⟩ := matchQueue_queue_mem aggSide aggId p qty os o1 ho1
            exact ⟨o, by simp [sideOrders_cons, ho], he⟩
          · exact ⟨o1, by simp [sideOrders_cons, ho1], rfl, rfl, rfl, rfl⟩
      · intro o1 ho1
        rw [matchLoop, if_neg h0, if_neg (by simp [hg])] at ho1
        exact ⟨o1, ho1, rfl, rfl, rfl, rfl⟩

/-- Orders surviving the loop have positive quantity if all incoming
ones did. -/
theorem matchLoop_pos (aggSide : Side) (gate : ℚ → Bool) (aggId : Nat) (qty : Nat)
    (ls : BookSide) (h : ∀ o ∈ sideOrders ls, 0 < o.quantity) :
    ∀ o1 ∈ sideOrders (matchLoop aggSide gate aggId qty ls).levels, 0 < o1.quantity := by
  induction ls generalizing qty with
  | nil => simp [matchLoop, sideOrders]
  | cons lv rest ih =>
    obtain ⟨p, os⟩ := lv
    by_cases h0 : qty = 0
    · intro o1 ho1
      rw [matchLoop, if_pos h0] at ho1
      exact h o1 ho1
    · by_cases hg : gate p = true
      · simp only [matchLoop, if_neg h0, hg, if_true]
        by_cases hq : (matchQueue aggSide aggId p qty os).queue.isEmpty = true
        · simp only [hq, if_true]
          exact ih (matchQueue aggSide aggId p qty os).qty
            fun o2 ho2 => h o2 (by simp [sideOrders_cons, ho2])
        · simp only [if_neg hq, sideOrders_cons, List.mem_append]
          intro o1 ho1
          rcases ho1 with ho1 | ho1
          · exact matchQueue_queue_pos aggSide aggId p qty os
              (fun o2 ho2 => h o2 (by simp [sideOrders_cons, ho2])) o1 ho1
          · exact h o1 (by simp [sideOrders_cons, ho1])
      · intro o1 ho1
        rw [matchLoop, if_neg h0, if_neg (by simp [hg])] at ho1
        exact h o1 ho1

/-- Well-formed level prices survive the loop. -/
theorem matchLoop_wf (aggSide : Side) (gate : ℚ → Bool) (aggId : Nat) (qty : Nat)
    (ls : BookSide) (h : ∀ lv ∈ ls, ∀ o ∈ lv.2, o.price = lv.1) :
    ∀ lv1 ∈ (matchLoop aggSide gate aggId qty ls).levels, ∀ o1 ∈ lv1.2,
      o1.price = lv1.1 := by
  induction ls generalizing qty with
  | nil => simp [matchLoop]
  | cons lv rest ih =>
    obtain ⟨p, os⟩ := lv
    by_cases h0 : qty = 0
    · intro lv1 hlv1
      rw [matchLoop, if_pos h0] at hlv1
      exact h lv1 hlv1
    · by_cases hg : gate p = true
      · simp only [matchLoop, if_neg h0, hg, if_true]
        by_cases hq : (matchQueue aggSide aggId p qty os).queue.isEmpty = true
        · simp only [hq, if_true]
          exact ih (matchQueue aggSide aggId p qty os).qty
            fun lv2 hlv2 => h lv2 (by simp [hlv2])
        · simp only [if_neg hq, List.mem_cons]
          intro lv1 hlv1
          rcases hlv1 with rfl | hlv1
          · intro o1 ho1
            obtain ⟨o, ho, -, hp, -, -⟩ := matchQueue_queue_mem aggSide aggId p qty os o1 ho1
            rw [hp]
            exact h (p, os) (by simp) o ho
          · exact h lv1 (by simp [hlv1])
      · intro lv1 hlv1
        rw [matchLoop, if_neg h0, if_neg (by simp [hg])] at hlv1
        exact h lv1 hlv1

/-- No empty level survives the loop (emptied levels are erased). -/
theorem matchLoop_ne (aggSide : Side) (gate : ℚ → Bool) (aggId : Nat) (qty : Nat)
    (ls : BookSide) (h : ∀ lv ∈ ls, lv.2 ≠ []) :
    ∀ lv1 ∈ (matchLoop aggSide gate aggId qty ls).levels, lv1.2 ≠ [] := by
  induction ls generalizing qty with
  | nil => simp [matchLoop]
  | cons lv rest ih =>
    obtain ⟨p, os⟩ := lv
    by_cases h0 : qty = 0
    · intro lv1 hlv1
      rw [matchLoop, if_pos h0] at hlv1
      exact h lv1 hlv1
    · by_cases hg : gate p = true
      · simp only [matchLoop, if_neg h0, hg, if_true]
        by_cases hq : (matchQueue aggSide aggId p qty os).queue.isEmpty = true
        · simp only [hq, if_true]
          exact ih (matchQueue aggSide aggId p qty os).qty
            fun lv2 hlv2 => h lv2 (by simp [hlv2])
        · simp only [if_neg hq, List.mem_cons]
          intro lv1 hlv1
          rcases hlv1 with rfl | hlv1
          · simpa [List.isEmpty_iff] using hq
          · exact h lv1 (by simp [hlv1])
      · intro lv1 hlv1
        rw [matchLoop, if_neg h0, if_neg (by simp [hg])] at hlv1
        exact h lv1 hlv1

/-- The level keys surviving the loop are a suffix of the incoming
keys. -/
theorem matchLoop_keys (aggSide : Side) (gate : ℚ → Bool) (aggId : Nat) (qty : Nat)
    (ls : BookSide) :
    ((matchLoop aggSide gate aggId qty ls).levels.map Prod.fst) <:+ (ls.map Prod.fst) := by
  induction ls generalizing qty with
  | nil => simp [matchLoop]
  | cons lv rest ih =>
    obtain ⟨p, os⟩ := lv
    by_cases h0 : qty = 0
    · rw [matchLoop, if_pos h0]
    · by_cases hg : gate p = true
      · simp only [matchLoop, if_neg h0, hg, if_true]
        by_cases hq : (matchQueue aggSide aggId p qty os).queue.isEmpty = true
        · simp only [hq, if_true, List.map_cons]
          exact (ih (matchQueue aggSide aggId p qty os).qty).trans (List.suffix_cons _ _)
        · rw [if_neg (by simpa [List.isEmpty_iff] using hq)]
          simp
      · rw [matchLoop, if_neg h0, if_neg (by simp [hg])]

/-! Facts about the insertion of a resting order. -/

/-- Inserting a resting order adds exactly that order to the side. -/
theorem insertOrder_perm (lt : ℚ → ℚ → Bool) (p : ℚ) (o : Order) (s : BookSide) :
    (sideOrders (insertOrder lt p o s)).Perm (o :: sideOrders s) := by
  induction s with
  | nil => simp [insertOrder, sideOrders]
  | cons lv rest ih =>
    obtain ⟨q, os⟩ := lv
    by_cases h1 : lt p q = true
    · simp only [insertOrder, if_pos h1, sideOrders_cons]
      simp
    · by_cases h2 : lt q p = true
      · simp only [insertOrder, if_neg h1, if_pos h2, sideOrders_cons]
        exact (ih.append_left os).trans List.perm_middle
      · simp only [insertOrder, if_neg h1, if_neg h2,
          sideOrders_cons, List.append_assoc, List.singleton_append]
        exact List.perm_middle

/-- Keys after an insert are the inserted key or old keys. -/
theorem insertOrder_keys_sub (lt : ℚ → ℚ → Bool) (p : ℚ) (o : Order) (s : BookSide) :
    ∀ k ∈ (insertOrder lt p o s).map Prod.fst, k = p ∨ k ∈ s.map Prod.fst := by
  induction s with
  | nil => simp [insertOrder]
  | cons lv rest ih =>
    obtain ⟨q, os⟩ := lv
    by_cases h1 : lt p q = true
    · simp only [insertOrder, if_pos h1, List.map_cons, List.mem_cons]
      tauto
    · by_cases h2 : lt q p = true
      · simp only [insertOrder, if_neg h1, if_pos h2, List.map_cons,
          List.mem_cons]
        intro k hk
        rcases hk with rfl | hk
        · simp
        · rcases ih k hk with rfl | hk <;> simp [hk]
      · simp only [insertOrder, if_neg h1, if_neg h2,
          List.map_cons, List.mem_cons]
        tauto

/-- An ordered insert preserves sortedness of the keys, for any
transitive order agreeing with the comparator. -/
theorem insertOrder_pairwise (lt : ℚ → ℚ → Bool) (R : ℚ → ℚ → Prop)
    (hiff : ∀ a b, lt a b = true ↔ R a b)
    (htrans : ∀ a b c, R a b → R b c → R a c)
    (p : ℚ) (o : Order) (s : BookSide)
    (hs : (s.map Prod.fst).Pairwise R) :
    ((insertOrder lt p o s).map Prod.fst).Pairwise R := by
  induction s with
  | nil => simp [insertOrder]
  | cons lv rest ih =>
    obtain ⟨q, os⟩ := lv
    rw [List.map_cons, List.pairwise_cons] at hs
    obtain ⟨hq, hrest⟩ := hs
    by_cases h1 : lt p q = true
    · rw [hiff] at h1
      simp only [insertOrder, if_pos ((hiff p q).mpr h1), List.map_cons]
      refine List.Pairwise.cons ?_ (List.Pairwise.cons hq hrest)
      intro k hk
      rcases List.mem_cons.mp hk with rfl | hk
      · exact h1
      · exact htrans p q k h1 (hq k hk)
    · by_cases h2 : lt q p = true
      · simp only [insertOrder, if_neg h1, if_pos h2, List.map_cons]
        refine List.Pairwise.cons ?_ (ih hrest)
        intro k hk
        rcases insertOrder_keys_sub lt p o rest k hk with rfl | hk
        · exact (hiff q k).mp h2
        · exact hq k hk
      · simp only [insertOrder, if_neg h1, if_neg h2,
          List.map_cons]
        exact List.Pairwise.cons hq hrest

/-- An insert preserves well-formed level prices when the inserted
order carries the inserted key and the comparator is connected. -/
theorem insertOrder_wf (lt : ℚ → ℚ → Bool)
    (hconn : ∀ a b, ¬ lt a b = true → ¬ lt b a = true → a = b)
    (p : ℚ) (o : Order) (ho : o.price = p) (s : BookSide)
    (h : ∀ lv ∈ s, ∀ o1 ∈ lv.2, o1.price = lv.1) :
    ∀ lv ∈ insertOrder lt p o s, ∀ o1 ∈ lv.2, o1.price = lv.1 := by
  induction s with
  | nil =>
    simp only [insertOrder, List.mem_singleton]
    rintro lv rfl o1 ho1
    rw [List.mem_singleton] at ho1
    subst ho1
    exact ho
  | cons lv0 rest ih =>
    obtain ⟨q, os⟩ := lv0
    by_cases h1 : lt p q = true
    · simp only [insertOrder, if_pos h1, List.mem_cons]
      intro lv hlv
      rcases hlv with rfl | hlv
      · intro o1 ho1
        rw [List.mem_singleton] at ho1
        subst ho1
        exact ho
      · exact h lv (List.mem_cons.mpr hlv)
    · by_cases h2 : lt q p = true
      · simp only [insertOrder, if_neg h1, if_pos h2, List.mem_cons]
        intro lv hlv
        rcases hlv with rfl | hlv
        · exact h (q, os) (by simp)
        · exact ih (fun lv2 hlv2 => h lv2 (by simp [hlv2])) lv hlv
      · have hqp : q = p := hconn q p (by simpa using h2) (by simpa using h1)
        simp only [insertOrder, if_neg h1, if_neg h2,
          List.mem_cons]
        intro lv hlv
        rcases hlv with rfl | hlv
        · intro o1 ho1
          rcases List.mem_append.mp ho1 with ho1 | ho1
          · exact h (q, os) (by simp) o1 ho1
          · rw [List.mem_singleton] at ho1
            subst ho1
            rw [ho, hqp]
        · exact h lv (by simp [hlv])

/-- An insert leaves no empty level. -/
theorem insertOrder_ne (lt : ℚ → ℚ → Bool) (p : ℚ) (o : Order) (s : BookSide)
    (h : ∀ lv ∈ s, lv.2 ≠ []) :
    ∀ lv ∈ insertOrder lt p o s, lv.2 ≠ [] := by
  induction s with
  | nil => simp [insertOrder]
  | cons lv0 rest ih =>
    obtain ⟨q, os⟩ := lv0
    by_cases h1 : lt p q = true
    · simp only [insertOrder, if_pos h1, List.mem_cons]
      rintro lv (rfl | hlv)
      · simp
      · exact h lv (List.mem_cons.mpr hlv)
    · by_cases h2 : lt q p = true
      · simp only [insertOrder, if_neg h1, if_pos h2, List.mem_cons]
        rintro lv (rfl | hlv)
        · exact h (q, os) (by simp)
        · exact ih (fun lv2 hlv2 => h lv2 (by simp [hlv2])) lv hlv
      · simp only [insertOrder, if_neg h1, if_neg h2,
          List.mem_cons]
        rintro lv (rfl | hlv)
        · simp
        · exact h lv (by simp [hlv])

/-- The comparators of the source agree with the orders on ℚ. -/
theorem lessComp_iff (a b : ℚ) : lessComp a b = true ↔ a < b := by
  simp [lessComp]

theorem greaterComp_iff (a b : ℚ) : greaterComp a b = true ↔ b < a := by
  simp [greaterComp]

theorem lessComp_conn (a b : ℚ) (h1 : ¬ lessComp a b = true)
    (h2 : ¬ lessComp b a = true) : a = b := by
  rw [lessComp_iff] at h1
  rw [lessComp_iff] at h2
  exact le_antisymm (not_lt.mp h2) (not_lt.mp h1)

theorem greaterComp_conn (a b : ℚ) (h1 : ¬ greaterComp a b = true)
    (h2 : ¬ greaterComp b a = true) : a = b := by
  rw [greaterComp_iff] at h1
  rw [greaterComp_iff] at h2
  exact le_antisymm (not_lt.mp h1) (not_lt.mp h2)

/-! Facts about cancellation on one side. -/

theorem removeFromSide_levels (p : ℚ) (oid : Nat) (s : BookSide) :
    ∀ lv1 ∈ removeFromSide p oid s, ∃ lv ∈ s, lv1.1 = lv.1
      ∧ lv1.2.Sublist lv.2 := by
  induction s with
  | nil => simp [removeFromSide]
  | cons lv0 rest ih =>
    obtain ⟨q, os⟩ := lv0
    by_cases hq : q = p
    · simp only [removeFromSide, if_pos hq]
      by_cases he : (os.filter (fun o => !(o.order_id == oid))).isEmpty = true
      · simp only [he, if_true]
        intro lv1 hlv1
        exact ⟨lv1, by simp [hlv1], rfl, List.Sublist.refl _⟩
      · simp only [if_neg he, List.mem_cons]
        rintro lv1 (rfl | hlv1)
        · exact ⟨(q, os), by simp, rfl, List.filter_sublist _⟩
        · exact ⟨lv1, by simp [hlv1], rfl, List.Sublist.refl _⟩
    · simp only [removeFromSide, if_neg hq, List.mem_cons]
      rintro lv1 (rfl | hlv1)
      · exact ⟨(q, os), by simp, rfl, List.Sublist.refl _⟩
      · obtain ⟨lv, hlv, he⟩ := ih lv1 hlv1
        exact ⟨lv, by simp [hlv], he⟩

theorem removeFromSide_sublist (p : ℚ) (oid : Nat) (s : BookSide) :
    (sideOrders (removeFromSide p oid s)).Sublist (sideOrders s) := by
  induction s with
  | nil => simp [removeFromSide]
  | cons lv0 rest ih =>
    obtain ⟨q, os⟩ := lv0
    by_cases hq : q = p
    · simp only [removeFromSide, if_pos hq]
      by_cases he : (os.filter (fun o => !(o.order_id == oid))).isEmpty = true
      · simp only [he, if_true, sideOrders_cons]
        exact (List.sublist_append_right os (sideOrders rest)).trans
          (List.Sublist.refl _)
      · simp only [if_neg he, sideOrders_cons]
        exact (List.filter_sublist os).append_right _
    · simp only [removeFromSide, if_neg hq, sideOrders_cons]
      exact ih.append_left os

theorem removeFromSide_keys (p : ℚ) (oid : Nat) (s : BookSide) :
    ((removeFromSide p oid s).map Prod.fst).Sublist (s.map Prod.fst) := by
  induction s with
  | nil => simp [removeFromSide]
  | cons lv0 rest ih =>
    obtain ⟨q, os⟩ := lv0
    by_cases hq : q = p
    · simp only [removeFromSide, if_pos hq]
      by_cases he : (os.filter (fun o => !(o.order_id == oid))).isEmpty = true
      · simp only [he, if_true, List.map_cons]
        exact (List.Sublist.refl _).cons q
      · simp only [if_neg he, List.map_cons]
        exact (List.Sublist.refl _).cons₂ q
    · simp only [removeFromSide, if_neg hq, List.map_cons]
      exact ih.cons₂ q

theorem removeFromSide_ne (p : ℚ) (oid : Nat) (s : BookSide)
    (h : ∀ lv ∈ s, lv.2 ≠ []) :
    ∀ lv1 ∈ removeFromSide p oid s, lv1.2 ≠ [] := by
  induction s with
  | nil => simp [removeFromSide]
  | cons lv0 rest ih =>
    obtain ⟨q, os⟩ := lv0
    by_cases hq : q = p
    · simp only [removeFromSide, if_pos hq]
      by_cases he : (os.filter (fun o => !(o.order_id == oid))).isEmpty = true
      · simp only [he, if_true]
        intro lv1 hlv1
        exact h lv1 (by simp [hlv1])
      · simp only [if_neg he, List.mem_cons]
        rintro lv1 (rfl | hlv1)
        · simpa [List.isEmpty_iff] using he
        · exact h lv1 (by simp [hlv1])
    · simp only [removeFromSide, if_neg hq, List.mem_cons]
      rintro lv1 (rfl | hlv1)
      · exact h (q, os) (by simp)
      · exact ih (fun lv2 hlv2 => h lv2 (by simp [hlv2])) lv1 hlv1

/-- Orders with a different id survive the removal. -/
theorem sideOrders_mem_level (s : BookSide) (o : Order) (ho : o ∈ sideOrders s) :
    ∃ lv ∈ s, o ∈ lv.2 := by
  induction s with
  | nil => simp [sideOrders] at ho
  | cons lv rest ih =>
    rw [sideOrders_cons, List.mem_append] at ho
    rcases ho with ho | ho
    · exact ⟨lv, by simp, ho⟩
    · obtain ⟨lv1, h1, h2⟩ := ih ho
      exact ⟨lv1, by simp [h1], h2⟩

/-- Orders with a different id survive the removal. -/
theorem removeFromSide_keeps (p : ℚ) (oid : Nat) (s : BookSide) :
    ∀ o ∈ sideOrders s, o.order_id ≠ oid → o ∈ sideOrders (removeFromSide p oid s) := by
  induction s with
  | nil => simp [removeFromSide, sideOrders]
  | cons lv0 rest ih =>
    obtain ⟨q, os⟩ := lv0
    intro o ho hne
    rw [sideOrders_cons, List.mem_append] at ho
    by_cases hq : q = p
    · simp only [removeFromSide, if_pos hq]
      by_cases he : (os.filter (fun o => !(o.order_id == oid))).isEmpty = true
      · rcases ho with ho | ho
        · exfalso
          rw [List.isEmpty_iff, List.filter_eq_nil_iff] at he
          exact absurd (by simpa using hne) (by simpa using he o ho)
        · simp only [he, if_true]
          exact ho
      · simp only [if_neg he, sideOrders_cons, List.mem_append]
        rcases ho with ho | ho
        · exact Or.inl (List.mem_filter.mpr ⟨ho, by simpa using hne⟩)
        · exact Or.inr ho
    · simp only [removeFromSide, if_neg hq, sideOrders_cons, List.mem_append]
      rcases ho with ho | ho
      · exact Or.inl ho
      · exact Or.inr (ih o ho hne)

/-- If every order under the target id sits at the key being removed,
and keys are unique, the removal clears the id from the side. -/
theorem removeFromSide_removes (p : ℚ) (oid : Nat) (s : BookSide)
    (hnd : (s.map Prod.fst).Nodup)
    (h : ∀ lv ∈ s, ∀ o ∈ lv.2, o.order_id = oid → lv.1 = p) :
    ∀ o ∈ sideOrders (removeFromSide p oid s), o.order_id ≠ oid := by
  induction s with
  | nil => simp [removeFromSide, sideOrders]
  | cons lv0 rest ih =>
    obtain ⟨q, os⟩ := lv0
    rw [List.map_cons, List.nodup_cons] at hnd
    obtain ⟨hq0, hndr⟩ := hnd
    by_cases hq : q = p
    · subst hq
      have hrest : ∀ o ∈ sideOrders rest, o.order_id ≠ oid := by
        intro o ho hoid
        obtain ⟨lv, hlv, hin⟩ := sideOrders_mem_level rest o ho
        have hlp := h lv (by simp [hlv]) o hin hoid
        exact hq0 (by simpa [hlp] using List.mem_map_of_mem Prod.fst hlv)
      intro o ho
      simp only [removeFromSide, eq_self_iff_true, if_true] at ho
      by_cases he : (os.filter (fun o1 => !(o1.order_id == oid))).isEmpty = true
      · rw [if_pos he] at ho
        exact hrest o ho
      · rw [if_neg he] at ho
        rw [sideOrders_cons, List.mem_append] at ho
        rcases ho with ho | ho
        · have := (List.mem_filter.mp ho).2
          simpa using this
        · exact hrest o ho
    · simp only [removeFromSide, if_neg hq, sideOrders_cons, List.mem_append]
      rintro o (ho | ho)
      · intro hoid
        exact hq (h (q, os) (by simp) o ho hoid)
      · exact ih hndr (fun lv hlv => h lv (by simp [hlv])) o ho

/-- Removal does not change the resting quantity of other ids. -/
theorem ordersQty_filter_ne (oid j : Nat) (hj : j ≠ oid) (os : List Order) :
    ordersQty j (os.filter (fun o => !(o.order_id == oid))) = ordersQty j os := by
  induction os with
  | nil => rfl
  | cons o rest ih =>
    by_cases ho : o.order_id = oid
    · rw [List.filter_cons_of_neg (by simp [ho]), ih, ordersQty_cons,
        if_neg (by rw [ho]; exact fun hh => hj hh.symm), Nat.zero_add]
    · rw [List.filter_cons_of_pos (by simp [ho]), ordersQty_cons, ordersQty_cons, ih]

theorem removeFromSide_other (p : ℚ) (oid j : Nat) (hj : j ≠ oid) (s : BookSide) :
    ordersQty j (sideOrders (removeFromSide p oid s)) = ordersQty j (sideOrders s) := by
  induction s with
  | nil => simp [removeFromSide]
  | cons lv0 rest ih =>
    obtain ⟨q, os⟩ := lv0
    by_cases hq : q = p
    · simp only [removeFromSide, if_pos hq]
      by_cases he : (os.filter (fun o => !(o.order_id == oid))).isEmpty = true
      · simp only [he, if_true, sideOrders_cons, ordersQty_append]
        have : ordersQty j os = 0 := by
          rw [← ordersQty_filter_ne oid j hj os, List.isEmpty_iff.mp he]
          rfl
        omega
      · simp only [if_neg he, sideOrders_cons, ordersQty_append,
          ordersQty_filter_ne oid j hj]
    · simp only [removeFromSide, if_neg hq, sideOrders_cons, ordersQty_append, ih]

/-- Quantity under an id only decreases along a sublist. -/
theorem ordersQty_sublist (j : Nat) (l1 l2 : List Order) (h : l1.Sublist l2) :
    ordersQty j l1 ≤ ordersQty j l2 := by
  induction h with
  | slnil => exact Nat.le_refl 0
  | cons o hsub ih =>
    rw [ordersQty_cons]
    omega
  | cons₂ o hsub ih =>
    rw [ordersQty_cons, ordersQty_cons]
    omega

/-! Facts about the id index. -/

theorem eraseIds_mem (ids : List Nat) (m : List (Nat × Side × ℚ)) (e : Nat × Side × ℚ) :
    e ∈ eraseIds ids m ↔ e ∈ m ∧ e.1 ∉ ids := by
  simp [eraseIds, List.mem_filter, List.elem_iff]

theorem eraseIds_sublist (ids : List Nat) (m : List (Nat × Side × ℚ)) :
    (eraseIds ids m).Sublist m := List.filter_sublist m

/-- With unique ids in the index, erasing the first hit for an id
removes exactly the entries under that id. -/
theorem eraseP_mem_nodup (m : List (Nat × Side × ℚ)) (oid : Nat)
    (hnd : (m.map Prod.fst).Nodup) (e : Nat × Side × ℚ) :
    e ∈ m.eraseP (fun x => x.1 == oid) ↔ e ∈ m ∧ e.1 ≠ oid := by
  induction m with
  | nil => simp
  | cons x rest ih =>
    rw [List.map_cons, List.nodup_cons] at hnd
    obtain ⟨hx, hndr⟩ := hnd
    by_cases hx0 : x.1 = oid
    · rw [List.eraseP_cons_of_pos (by simp [hx0])]
      constructor
      · intro he
        refine ⟨by simp [he], ?_⟩
        intro heq
        apply hx
        have hm := List.mem_map_of_mem Prod.fst he
        rwa [heq, ← hx0] at hm
      · rintro ⟨he, hne⟩
        rcases List.mem_cons.mp he with rfl | he
        · exact absurd hx0 hne
        · exact he
    · rw [List.eraseP_cons_of_neg (by simp [hx0])]
      rw [List.mem_cons, ih hndr, List.mem_cons]
      constructor
      · rintro (rfl | ⟨he, hne⟩)
        · exact ⟨Or.inl rfl, hx0⟩
        · exact ⟨Or.inr he, hne⟩
      · rintro ⟨rfl | he, hne⟩
        · exact Or.inl rfl
        · exact Or.inr ⟨he, hne⟩

theorem eraseP_sublist_map (m : List (Nat × Side × ℚ)) (oid : Nat) :
    ((m.eraseP (fun x => x.1 == oid)).map Prod.fst).Sublist (m.map Prod.fst) :=
  (List.eraseP_sublist m).map Prod.fst

/-- Erasing a freshly appended entry restores the index. -/
theorem eraseP_append_singleton (m : List (Nat × Side × ℚ)) (id0 : Nat) (x : Side × ℚ)
    (h : ∀ e ∈ m, e.1 ≠ id0) :
    (m ++ [(id0, x)]).eraseP (fun e => e.1 == id0) = m := by
  induction m with
  | nil => simp [List.eraseP]
  | cons e rest ih =>
    rw [List.cons_append, List.eraseP_cons_of_neg (by simp [h e (by simp)])]
    rw [ih fun e1 he1 => h e1 (by simp [he1])]

/-- Looking up a freshly appended entry finds it. -/
theorem find?_append_singleton (m : List (Nat × Side × ℚ)) (id0 : Nat) (x : Side × ℚ)
    (h : ∀ e ∈ m, e.1 ≠ id0) :
    (m ++ [(id0, x)]).find? (fun e => e.1 == id0) = some (id0, x) := by
  induction m with
  | nil => simp [List.find?]
  | cons e rest ih =>
    rw [List.cons_append, List.find?_cons_of_neg _ (by simp [h e (by simp)])]
    exact ih fun e1 he1 => h e1 (by simp [he1])

/-! The structural invariant of reachable engine states. -/

/-- The side of the book an index entry points into. -/
def sideOf (b : OrderBook) : Side → BookSide
  | .BUY => b.bids
  | .SELL => b.asks

theorem mem_sideOrders_of (s : BookSide) (lv : Level) (o : Order)
    (hlv : lv ∈ s) (ho : o ∈ lv.2) : o ∈ sideOrders s := by
  induction s with
  | nil => simp at hlv
  | cons lv0 rest ih =>
    rw [sideOrders_cons, List.mem_append]
    rcases List.mem_cons.mp hlv with rfl | hlv
    · exact Or.inl ho
    · exact Or.inr (ih hlv)

theorem allIds_eq (b : OrderBook) :
    (allOrders b).map Order.order_id = sideIds b.bids ++ sideIds b.asks := by
  simp [allOrders, sideIds]

/-- The invariants tied to a book state: level prices match the orders
they hold, resting quantities are positive, no level is empty, keys are
sorted in map iteration order (ascending bids under `std::less`,
descending asks under `std::greater`), all ids are below the id
counter, resting ids are unique, and the id index is in bijection with
the resting orders, recording their side and price. -/
structure Inv (b : OrderBook) : Prop where
  wfB : ∀ lv ∈ b.bids, ∀ o ∈ lv.2, o.price = lv.1
  wfA : ∀ lv ∈ b.asks, ∀ o ∈ lv.2, o.price = lv.1
  posQty : ∀ o ∈ allOrders b, 0 < o.quantity
  neB : ∀ lv ∈ b.bids, lv.2 ≠ []
  neA : ∀ lv ∈ b.asks, lv.2 ≠ []
  keysB : (b.bids.map Prod.fst).Pairwise (fun a c => a < c)
  keysA : (b.asks.map Prod.fst).Pairwise (fun a c => c < a)
  idsLt : ∀ o ∈ allOrders b, o.order_id < b.next_order_id
  mapLt : ∀ e ∈ b.order_map, e.1 < b.next_order_id
  trLt : ∀ t ∈ b.trade_history,
    t.buy_order_id < b.next_order_id ∧ t.sell_order_id < b.next_order_id
  nodupIds : ((allOrders b).map Order.order_id).Nodup
  mapNodup : (b.order_map.map Prod.fst).Nodup
  mapToBook : ∀ e ∈ b.order_map,
    ∃ o ∈ sideOrders (sideOf b e.2.1), o.order_id = e.1 ∧ o.price = e.2.2
  bookToMap : ∀ o ∈ allOrders b, ∃ e ∈ b.order_map, e.1 = o.order_id

theorem inv_empty : Inv OrderBook.empty := by
  refine ⟨?_, ?_, ?_, ?_, ?_, ?_, ?_, ?_, ?_, ?_, ?_, ?_, ?_, ?_⟩ <;>
    simp [OrderBook.empty, allOrders, sideOrders]

/-- Invariant transport through the pure matching phase against the
ask side (BUY aggressor with the book's fresh id), together with the
fact that all surviving book and index ids predate the aggressor. -/
theorem inv_after_match_asks (b : OrderBook) (hb : Inv b) (gate : ℚ → Bool) (qty : Nat) :
    Inv { b with
      asks := (matchLoop .BUY gate b.next_order_id qty b.asks).levels,
      order_map := eraseIds (matchLoop .BUY gate b.next_order_id qty b.asks).filledIds
        b.order_map,
      trade_history := b.trade_history
        ++ (matchLoop .BUY gate b.next_order_id qty b.asks).trades,
      next_order_id := b.next_order_id + 1,
      total_orders_processed := b.total_orders_processed + 1,
      total_trades := b.total_trades
        + (matchLoop .BUY gate b.next_order_id qty b.asks).trades.length }
  ∧ (∀ o ∈ sideOrders b.bids
      ++ sideOrders (matchLoop .BUY gate b.next_order_id qty b.asks).levels,
      o.order_id < b.next_order_id)
  ∧ (∀ e ∈ eraseIds (matchLoop .BUY gate b.next_order_id qty b.asks).filledIds
      b.order_map, e.1 < b.next_order_id) := by
  set aggId := b.next_order_id with haggId
  set r := matchLoop .BUY gate aggId qty b.asks with hr
  have hordersLt : ∀ o ∈ sideOrders b.bids ++ sideOrders r.levels,
      o.order_id < aggId := by
    intro o ho
    rcases List.mem_append.mp ho with ho | ho
    · exact hb.idsLt o (List.mem_append.mpr (Or.inl ho))
    · obtain ⟨o2, ho2, hid, -, -, -⟩ := matchLoop_orders_mem .BUY gate aggId qty b.asks o ho
      rw [hid]
      exact hb.idsLt o2 (List.mem_append.mpr (Or.inr ho2))
  have hmapLt : ∀ e ∈ eraseIds r.filledIds b.order_map, e.1 < aggId := by
    intro e he
    exact hb.mapLt e ((eraseIds_sublist r.filledIds b.order_map).subset he)
  have hidsSplit := matchLoop_ids .BUY gate aggId qty b.asks
  rw [← hr] at hidsSplit
  have hallNodup : ((sideOrders b.bids ++ sideOrders r.levels).map Order.order_id).Nodup := by
    rw [List.map_append]
    have hsub : (sideIds b.bids ++ sideIds r.levels).Sublist
        (sideIds b.bids ++ sideIds b.asks) := by
      refine List.Sublist.append_left ?_ (sideIds b.bids)
      rw [hidsSplit]
      exact List.sublist_append_right _ _
    have hnd := hb.nodupIds
    rw [allIds_eq] at hnd
    exact hsub.nodup hnd
  refine ⟨⟨?_, ?_, ?_, ?_, ?_, ?_, ?_, ?_, ?_, ?_, ?_, ?_, ?_, ?_⟩, hordersLt, hmapLt⟩
  · exact hb.wfB
  · exact matchLoop_wf .BUY gate aggId qty b.asks hb.wfA
  · intro o ho
    replace ho : o ∈ sideOrders b.bids ++ sideOrders r.levels := ho
    rcases List.mem_append.mp ho with ho | ho
    · exact hb.posQty o (List.mem_append.mpr (Or.inl ho))
    · exact matchLoop_pos .BUY gate aggId qty b.asks
        (fun o2 ho2 => hb.posQty o2 (List.mem_append.mpr (Or.inr ho2))) o ho
  · exact hb.neB
  · exact matchLoop_ne .BUY gate aggId qty b.asks hb.neA
  · exact hb.keysB
  · exact List.Pairwise.sublist (matchLoop_keys .BUY gate aggId qty b.asks).sublist hb.keysA
  · intro o ho
    replace ho : o ∈ sideOrders b.bids ++ sideOrders r.levels := ho
    exact Nat.lt_succ_of_lt (hordersLt o ho)
  · intro e he
    replace he : e ∈ eraseIds r.filledIds b.order_map := he
    exact Nat.lt_succ_of_lt (hmapLt e he)
  · intro t ht
    replace ht : t ∈ b.trade_history ++ r.trades := ht
    rcases List.mem_append.mp ht with ht | ht
    · exact ⟨Nat.lt_succ_of_lt (hb.trLt t ht).1, Nat.lt_succ_of_lt (hb.trLt t ht).2⟩
    · obtain ⟨lv, hlv, o, ho, he⟩ := matchLoop_trades .BUY gate aggId qty b.asks t ht
      have ho2 : o ∈ allOrders b :=
        List.mem_append.mpr (Or.inr (mem_sideOrders_of b.asks lv o hlv ho))
      have hlt := hb.idsLt o ho2
      rw [he]
      exact ⟨Nat.lt_succ_self aggId, Nat.lt_succ_of_lt hlt⟩
  · exact hallNodup
  · exact (((eraseIds_sublist r.filledIds b.order_map).map Prod.fst).nodup hb.mapNodup : _)
  · intro e he
    replace he : e ∈ eraseIds r.filledIds b.order_map := he
    rw [eraseIds_mem] at he
    obtain ⟨hem, hef⟩ := he
    obtain ⟨o0, ho0, hoid, hop⟩ := hb.mapToBook e hem
    cases hside : e.2.1 with
    | BUY =>
      rw [hside] at ho0
      exact ⟨o0, ho0, hoid, hop⟩
    | SELL =>
      rw [hside] at ho0
      replace ho0 : o0 ∈ sideOrders b.asks := ho0
      have hin : o0.order_id ∈ sideIds r.levels := by
        have h1 : o0.order_id ∈ sideIds b.asks := by
          rw [sideIds]
          exact List.mem_map_of_mem Order.order_id ho0
        rw [hidsSplit] at h1
        rcases List.mem_append.mp h1 with h1 | h1
        · exact absurd (hoid ▸ h1) hef
        · exact h1
      obtain ⟨o1, ho1, hid1⟩ := List.mem_map.mp hin
      obtain ⟨o2, ho2, hid2, hp2, -, -⟩ :=
        matchLoop_orders_mem .BUY gate aggId qty b.asks o1 ho1
      have ho0a : o0 ∈ allOrders b := List.mem_append.mpr (Or.inr ho0)
      have ho2a : o2 ∈ allOrders b := List.mem_append.mpr (Or.inr ho2)
      have heq : o2 = o0 :=
        List.inj_on_of_nodup_map hb.nodupIds ho2a ho0a (by rw [← hid2, hid1, hoid])
      exact ⟨o1, ho1, by rw [hid1, hoid], by rw [hp2, heq, hop]⟩
  · intro o1 ho1
    replace ho1 : o1 ∈ sideOrders b.bids ++ sideOrders r.levels := ho1
    have hnd := hb.nodupIds
    rw [allIds_eq] at hnd
    have hdis : (sideIds b.bids).Disjoint (sideIds b.asks) :=
      List.disjoint_of_nodup_append hnd
    rcases List.mem_append.mp ho1 with ho1 | ho1
    · obtain ⟨e, he, heid⟩ := hb.bookToMap o1 (List.mem_append.mpr (Or.inl ho1))
      refine ⟨e, ?_, heid⟩
      show e ∈ eraseIds r.filledIds b.order_map
      rw [eraseIds_mem]
      refine ⟨he, ?_⟩
      intro hmem
      have hfsub : r.filledIds.Sublist (sideIds b.asks) := by
        rw [hidsSplit]
        exact List.sublist_append_left _ _
      have h1 : e.1 ∈ sideIds b.asks := hfsub.subset hmem
      have hbid : e.1 ∈ sideIds b.bids := by
        rw [heid, sideIds]
        exact List.mem_map_of_mem Order.order_id ho1
      exact hdis hbid h1
    · obtain ⟨o2, ho2, hid2, -, -, -⟩ :=
        matchLoop_orders_mem .BUY gate aggId qty b.asks o1 ho1
      obtain ⟨e, he, heid⟩ := hb.bookToMap o2 (List.mem_append.mpr (Or.inr ho2))
      refine ⟨e, ?_, by rw [heid, ← hid2]⟩
      show e ∈ eraseIds r.filledIds b.order_map
      rw [eraseIds_mem]
      refine ⟨he, ?_⟩
      intro hmem
      have hnodupA : (sideIds b.asks).Nodup := hnd.of_append_right
      rw [hidsSplit] at hnodupA
      have hdis2 : r.filledIds.Disjoint (sideIds r.levels) :=
        List.disjoint_of_nodup_append hnodupA
      have hin1 : o1.order_id ∈ sideIds r.levels := by
        rw [sideIds]
        exact List.mem_map_of_mem Order.order_id ho1
      have h1 : e.1 ∈ sideIds r.levels := by
        rw [heid, ← hid2]
        exact hin1
      exact hdis2 hmem h1

/-- Invariant transport through the pure matching phase against the
bid side (SELL aggressor with the book's fresh id). -/
theorem inv_after_match_bids (b : OrderBook) (hb : Inv b) (gate : ℚ → Bool) (qty : Nat) :
    Inv { b with
      bids := (matchLoop .SELL gate b.next_order_id qty b.bids).levels,
      order_map := eraseIds (matchLoop .SELL gate b.next_order_id qty b.bids).filledIds
        b.order_map,
      trade_history := b.trade_history
        ++ (matchLoop .SELL gate b.next_order_id qty b.bids).trades,
      next_order_id := b.next_order_id + 1,
      total_orders_processed := b.total_orders_processed + 1,
      total_trades := b.total_trades
        + (matchLoop .SELL gate b.next_order_id qty b.bids).trades.length }
  ∧ (∀ o ∈ sideOrders (matchLoop .SELL gate b.next_order_id qty b.bids).levels
      ++ sideOrders b.asks,
      o.order_id < b.next_order_id)
  ∧ (∀ e ∈ eraseIds (matchLoop .SELL gate b.next_order_id qty b.bids).filledIds
      b.order_map, e.1 < b.next_order_id) := by
  set aggId := b.next_order_id with haggId
  set r := matchLoop .SELL gate aggId qty b.bids with hr
  have hordersLt : ∀ o ∈ sideOrders r.levels ++ sideOrders b.asks,
      o.order_id < aggId := by
    intro o ho
    rcases List.mem_append.mp ho with ho | ho
    · obtain ⟨o2, ho2, hid, -, -, -⟩ := matchLoop_orders_mem .SELL gate aggId qty b.bids o ho
      rw [hid]
      exact hb.idsLt o2 (List.mem_append.mpr (Or.inl ho2))
    · exact hb.idsLt o (List.mem_append.mpr (Or.inr ho))
  have hmapLt : ∀ e ∈ eraseIds r.filledIds b.order_map, e.1 < aggId := by
    intro e he
    exact hb.mapLt e ((eraseIds_sublist r.filledIds b.order_map).subset he)
  have hidsSplit := matchLoop_ids .SELL gate aggId qty b.bids
  rw [← hr] at hidsSplit
  have hallNodup : ((sideOrders r.levels ++ sideOrders b.asks).map Order.order_id).Nodup := by
    rw [List.map_append]
    have hsub : (sideIds r.levels ++ sideIds b.asks).Sublist
        (sideIds b.bids ++ sideIds b.asks) := by
      refine List.Sublist.append_right ?_ (sideIds b.asks)
      rw [hidsSplit]
      exact List.sublist_append_right _ _
    have hnd := hb.nodupIds
    rw [allIds_eq] at hnd
    exact hsub.nodup hnd
  refine ⟨⟨?_, ?_, ?_, ?_, ?_, ?_, ?_, ?_, ?_, ?_, ?_, ?_, ?_, ?_⟩, hordersLt, hmapLt⟩
  · exact matchLoop_wf .SELL gate aggId qty b.bids hb.wfB
  · exact hb.wfA
  · intro o ho
    replace ho : o ∈ sideOrders r.levels ++ sideOrders b.asks := ho
    rcases List.mem_append.mp ho with ho | ho
    · exact matchLoop_pos .SELL gate aggId qty b.bids
        (fun o2 ho2 => hb.posQty o2 (List.mem_append.mpr (Or.inl ho2))) o ho
    · exact hb.posQty o (List.mem_append.mpr (Or.inr ho))
  · exact matchLoop_ne .SELL gate aggId qty b.bids hb.neB
  · exact hb.neA
  · exact List.Pairwise.sublist (matchLoop_keys .SELL gate aggId qty b.bids).sublist hb.keysB
  · exact hb.keysA
  · intro o ho
    replace ho : o ∈ sideOrders r.levels ++ sideOrders b.asks := ho
    exact Nat.lt_succ_of_lt (hordersLt o ho)
  · intro e he
    replace he : e ∈ eraseIds r.filledIds b.order_map := he
    exact Nat.lt_succ_of_lt (hmapLt e he)
  · intro t ht
    replace ht : t ∈ b.trade_history ++ r.trades := ht
    rcases List.mem_append.mp ht with ht | ht
    · exact ⟨Nat.lt_succ_of_lt (hb.trLt t ht).1, Nat.lt_succ_of_lt (hb.trLt t ht).2⟩
    · obtain ⟨lv, hlv, o, ho, he⟩ := matchLoop_trades .SELL gate aggId qty b.bids t ht
      have ho2 : o ∈ allOrders b :=
        List.mem_append.mpr (Or.inl (mem_sideOrders_of b.bids lv o hlv ho))
      have hlt := hb.idsLt o ho2
      rw [he]
      exact ⟨Nat.lt_succ_of_lt hlt, Nat.lt_succ_self aggId⟩
  · exact hallNodup
  · exact (((eraseIds_sublist r.filledIds b.order_map).map Prod.fst).nodup hb.mapNodup : _)
  · intro e he
    replace he : e ∈ eraseIds r.filledIds b.order_map := he
    rw [eraseIds_mem] at he
    obtain ⟨hem, hef⟩ := he
    obtain ⟨o0, ho0, hoid, hop⟩ := hb.mapToBook e hem
    cases hside : e.2.1 with
    | SELL =>
      rw [hside] at ho0
      exact ⟨o0, ho0, hoid, hop⟩
    | BUY =>
      rw [hside] at ho0
      replace ho0 : o0 ∈ sideOrders b.bids := ho0
      have hin : o0.order_id ∈ sideIds r.levels := by
        have h1 : o0.order_id ∈ sideIds b.bids := by
          rw [sideIds]
          exact List.mem_map_of_mem Order.order_id ho0
        rw [hidsSplit] at h1
        rcases List.mem_append.mp h1 with h1 | h1
        · exact absurd (hoid ▸ h1) hef
        · exact h1
      obtain ⟨o1, ho1, hid1⟩ := List.mem_map.mp hin
      obtain ⟨o2, ho2, hid2, hp2, -, -⟩ :=
        matchLoop_orders_mem .SELL gate aggId qty b.bids o1 ho1
      have ho0a : o0 ∈ allOrders b := List.mem_append.mpr (Or.inl ho0)
      have ho2a : o2 ∈ allOrders b := List.mem_append.mpr (Or.inl ho2)
      have heq : o2 = o0 :=
        List.inj_on_of_nodup_map hb.nodupIds ho2a ho0a (by rw [← hid2, hid1, hoid])
      exact ⟨o1, ho1, by rw [hid1, hoid], by rw [hp2, heq, hop]⟩
  · intro o1 ho1
    replace ho1 : o1 ∈ sideOrders r.levels ++ sideOrders b.asks := ho1
    have hnd := hb.nodupIds
    rw [allIds_eq] at hnd
    have hdis : (sideIds b.bids).Disjoint (sideIds b.asks) :=
      List.disjoint_of_nodup_append hnd
    rcases List.mem_append.mp ho1 with ho1 | ho1
    · obtain ⟨o2, ho2, hid2, -, -, -⟩ :=
        matchLoop_orders_mem .SELL gate aggId qty b.bids o1 ho1
      obtain ⟨e, he, heid⟩ := hb.bookToMap o2 (List.mem_append.mpr (Or.inl ho2))
      refine ⟨e, ?_, by rw [heid, ← hid2]⟩
      show e ∈ eraseIds r.filledIds b.order_map
      rw [eraseIds_mem]
      refine ⟨he, ?_⟩
      intro hmem
      have hnodupB : (sideIds b.bids).Nodup := hnd.of_append_left
      rw [hidsSplit] at hnodupB
      have hdis2 : r.filledIds.Disjoint (sideIds r.levels) :=
        List.disjoint_of_nodup_append hnodupB
      have hin1 : o1.order_id ∈ sideIds r.levels := by
        rw [sideIds]
        exact List.mem_map_of_mem Order.order_id ho1
      have h1 : e.1 ∈ sideIds r.levels := by
        rw [heid, ← hid2]
        exact hin1
      exact hdis2 hmem h1
    · obtain ⟨e, he, heid⟩ := hb.bookToMap o1 (List.mem_append.mpr (Or.inr ho1))
      refine ⟨e, ?_, heid⟩
      show e ∈ eraseIds r.filledIds b.order_map
      rw [eraseIds_mem]
      refine ⟨he, ?_⟩
      intro hmem
      have hfsub : r.filledIds.Sublist (sideIds b.bids) := by
        rw [hidsSplit]
        exact List.sublist_append_left _ _
      have h1 : e.1 ∈ sideIds b.bids := hfsub.subset hmem
      have hask : e.1 ∈ sideIds b.asks := by
        rw [heid, sideIds]
        exact List.mem_map_of_mem Order.order_id ho1
      exact hdis h1 hask

/-- Invariant transport through the resting of a fresh residual limit
order on the bid side. -/
theorem inv_rest_bids (c : OrderBook) (hc : Inv c) (i : Nat) (ty : OrderType)
    (p : ℚ) (q : Nat) (hq : 0 < q) (hi : i < c.next_order_id)
    (hfreshB : ∀ o ∈ allOrders c, o.order_id ≠ i)
    (hfreshM : ∀ e ∈ c.order_map, e.1 ≠ i) :
    Inv { c with
      bids := insertOrder lessComp p ⟨i, .BUY, ty, p, q⟩ c.bids,
      order_map := c.order_map ++ [(i, Side.BUY, p)] } := by
  set o0 : Order := ⟨i, .BUY, ty, p, q⟩ with ho0
  have hperm := insertOrder_perm lessComp p o0 c.bids
  have hmemIns : ∀ o1 ∈ sideOrders (insertOrder lessComp p o0 c.bids),
      o1 = o0 ∨ o1 ∈ sideOrders c.bids := by
    intro o1 h1
    have := hperm.subset h1
    simpa using this
  have hmemIns2 : ∀ o1, (o1 = o0 ∨ o1 ∈ sideOrders c.bids) →
      o1 ∈ sideOrders (insertOrder lessComp p o0 c.bids) := by
    intro o1 h1
    exact hperm.symm.subset (by simpa using h1)
  refine ⟨?_, ?_, ?_, ?_, ?_, ?_, ?_, ?_, ?_, ?_, ?_, ?_, ?_, ?_⟩
  · exact insertOrder_wf lessComp lessComp_conn p o0 rfl c.bids hc.wfB
  · exact hc.wfA
  · intro o1 h1
    replace h1 : o1 ∈ sideOrders (insertOrder lessComp p o0 c.bids)
        ++ sideOrders c.asks := h1
    rcases List.mem_append.mp h1 with h1 | h1
    · rcases hmemIns o1 h1 with rfl | h1
      · exact hq
      · exact hc.posQty o1 (List.mem_append.mpr (Or.inl h1))
    · exact hc.posQty o1 (List.mem_append.mpr (Or.inr h1))
  · exact insertOrder_ne lessComp p o0 c.bids hc.neB
  · exact hc.neA
  · exact insertOrder_pairwise lessComp (fun a b => a < b) lessComp_iff
      (fun a b d hab hbd => lt_trans hab hbd) p o0 c.bids hc.keysB
  · exact hc.keysA
  · intro o1 h1
    replace h1 : o1 ∈ sideOrders (insertOrder lessComp p o0 c.bids)
        ++ sideOrders c.asks := h1
    rcases List.mem_append.mp h1 with h1 | h1
    · rcases hmemIns o1 h1 with rfl | h1
      · exact hi
      · exact hc.idsLt o1 (List.mem_append.mpr (Or.inl h1))
    · exact hc.idsLt o1 (List.mem_append.mpr (Or.inr h1))
  · intro e he
    replace he : e ∈ c.order_map ++ [(i, Side.BUY, p)] := he
    rcases List.mem_append.mp he with he | he
    · exact hc.mapLt e he
    · rw [List.mem_singleton] at he
      subst he
      exact hi
  · exact hc.trLt
  · have hpm : ((sideOrders (insertOrder lessComp p o0 c.bids) ++ sideOrders c.asks).map
        Order.order_id).Perm (i :: (allOrders c).map Order.order_id) := by
      rw [List.map_append]
      have h1 : ((sideOrders (insertOrder lessComp p o0 c.bids)).map Order.order_id).Perm
          (i :: (sideOrders c.bids).map Order.order_id) := hperm.map Order.order_id
      have h2 := h1.append_right ((sideOrders c.asks).map Order.order_id)
      rw [allIds_eq]
      exact h2
    refine hpm.symm.nodup (List.nodup_cons.mpr ⟨?_, hc.nodupIds⟩)
    intro hmem
    obtain ⟨o1, ho1, hid1⟩ := List.mem_map.mp hmem
    exact hfreshB o1 ho1 hid1
  · rw [List.map_append, List.nodup_append]
    refine ⟨hc.mapNodup, by simp, ?_⟩
    intro x hx hx2
    simp only [List.map_cons, List.map_nil, List.mem_singleton] at hx2
    obtain ⟨e, he, heq⟩ := List.mem_map.mp hx
    exact hfreshM e he (by rw [heq, hx2])
  · intro e he
    replace he : e ∈ c.order_map ++ [(i, Side.BUY, p)] := he
    rcases List.mem_append.mp he with he | he
    · obtain ⟨o1, ho1, hid1, hp1⟩ := hc.mapToBook e he
      cases hside : e.2.1 with
      | BUY =>
        rw [hside] at ho1
        replace ho1 : o1 ∈ sideOrders c.bids := ho1
        exact ⟨o1, hmemIns2 o1 (Or.inr ho1), hid1, hp1⟩
      | SELL =>
        rw [hside] at ho1
        exact ⟨o1, ho1, hid1, hp1⟩
    · rw [List.mem_singleton] at he
      subst he
      exact ⟨o0, hmemIns2 o0 (Or.inl rfl), rfl, rfl⟩
  · intro o1 h1
    replace h1 : o1 ∈ sideOrders (insertOrder lessComp p o0 c.bids)
        ++ sideOrders c.asks := h1
    rcases List.mem_append.mp h1 with h1 | h1
    · rcases hmemIns o1 h1 with rfl | h1
      · exact ⟨(i, Side.BUY, p), by simp, rfl⟩
      · obtain ⟨e, he, heid⟩ := hc.bookToMap o1 (List.mem_append.mpr (Or.inl h1))
        exact ⟨e, by simp [he], heid⟩
    · obtain ⟨e, he, heid⟩ := hc.bookToMap o1 (List.mem_append.mpr (Or.inr h1))
      exact ⟨e, by simp [he], heid⟩

/-- Invariant transport through the resting of a fresh residual limit
order on the ask side. -/
theorem inv_rest_asks (c : OrderBook) (hc : Inv c) (i : Nat) (ty : OrderType)
    (p : ℚ) (q : Nat) (hq : 0 < q) (hi : i < c.next_order_id)
    (hfreshB : ∀ o ∈ allOrders c, o.order_id ≠ i)
    (hfreshM : ∀ e ∈ c.order_map, e.1 ≠ i) :
    Inv { c with
      asks := insertOrder greaterComp p ⟨i, .SELL, ty, p, q⟩ c.asks,
      order_map := c.order_map ++ [(i, Side.SELL, p)] } := by
  set o0 : Order := ⟨i, .SELL, ty, p, q⟩ with ho0
  have hperm := insertOrder_perm greaterComp p o0 c.asks
  have hmemIns : ∀ o1 ∈ sideOrders (insertOrder greaterComp p o0 c.asks),
      o1 = o0 ∨ o1 ∈ sideOrders c.asks := by
    intro o1 h1
    have := hperm.subset h1
    simpa using this
  have hmemIns2 : ∀ o1, (o1 = o0 ∨ o1 ∈ sideOrders c.asks) →
      o1 ∈ sideOrders (insertOrder greaterComp p o0 c.asks) := by
    intro o1 h1
    exact hperm.symm.subset (by simpa using h1)
  refine ⟨?_, ?_, ?_, ?_, ?_, ?_, ?_, ?_, ?_, ?_, ?_, ?_, ?_, ?_⟩
  · exact hc.wfB
  · exact insertOrder_wf greaterComp greaterComp_conn p o0 rfl c.asks hc.wfA
  · intro o1 h1
    replace h1 : o1 ∈ sideOrders c.bids
        ++ sideOrders (insertOrder greaterComp p o0 c.asks) := h1
    rcases List.mem_append.mp h1 with h1 | h1
    · exact hc.posQty o1 (List.mem_append.mpr (Or.inl h1))
    · rcases hmemIns o1 h1 with rfl | h1
      · exact hq
      · exact hc.posQty o1 (List.mem_append.mpr (Or.inr h1))
  · exact hc.neB
  · exact insertOrder_ne greaterComp p o0 c.asks hc.neA
  · exact hc.keysB
  · exact insertOrder_pairwise greaterComp (fun a b => b < a) greaterComp_iff
      (fun a b d hab hbd => lt_trans hbd hab) p o0 c.asks hc.keysA
  · intro o1 h1
    replace h1 : o1 ∈ sideOrders c.bids
        ++ sideOrders (insertOrder greaterComp p o0 c.asks) := h1
    rcases List.mem_append.mp h1 with h1 | h1
    · exact hc.idsLt o1 (List.mem_append.mpr (Or.inl h1))
    · rcases hmemIns o1 h1 with rfl | h1
      · exact hi
      · exact hc.idsLt o1 (List.mem_append.mpr (Or.inr h1))
  · intro e he
    replace he : e ∈ c.order_map ++ [(i, Side.SELL, p)] := he
    rcases List.mem_append.mp he with he | he
    · exact hc.mapLt e he
    · rw [List.mem_singleton] at he
      subst he
      exact hi
  · exact hc.trLt
  · have hpm : ((sideOrders c.bids ++ sideOrders (insertOrder greaterComp p o0 c.asks)).map
        Order.order_id).Perm (i :: (allOrders c).map Order.order_id) := by
      rw [List.map_append]
      have h1 : ((sideOrders (insertOrder greaterComp p o0 c.asks)).map Order.order_id).Perm
          (i :: (sideOrders c.asks).map Order.order_id) := hperm.map Order.order_id
      have h2 := h1.append_left ((sideOrders c.bids).map Order.order_id)
      rw [allIds_eq]
      exact h2.trans List.perm_middle
    refine hpm.symm.nodup (List.nodup_cons.mpr ⟨?_, hc.nodupIds⟩)
    intro hmem
    obtain ⟨o1, ho1, hid1⟩ := List.mem_map.mp hmem
    exact hfreshB o1 ho1 hid1
  · rw [List.map_append, List.nodup_append]
    refine ⟨hc.mapNodup, by simp, ?_⟩
    intro x hx hx2
    simp only [List.map_cons, List.map_nil, List.mem_singleton] at hx2
    obtain ⟨e, he, heq⟩ := List.mem_map.mp hx
    exact hfreshM e he (by rw [heq, hx2])
  · intro e he
    replace he : e ∈ c.order_map ++ [(i, Side.SELL, p)] := he
    rcases List.mem_append.mp he with he | he
    · obtain ⟨o1, ho1, hid1, hp1⟩ := hc.mapToBook e he
      cases hside : e.2.1 with
      | BUY =>
        rw [hside] at ho1
        exact ⟨o1, ho1, hid1, hp1⟩
      | SELL =>
        rw [hside] at ho1
        replace ho1 : o1 ∈ sideOrders c.asks := ho1
        exact ⟨o1, hmemIns2 o1 (Or.inr ho1), hid1, hp1⟩
    · rw [List.mem_singleton] at he
      subst he
      exact ⟨o0, hmemIns2 o0 (Or.inl rfl), rfl, rfl⟩
  · intro o1 h1
    replace h1 : o1 ∈ sideOrders c.bids
        ++ sideOrders (insertOrder greaterComp p o0 c.asks) := h1
    rcases List.mem_append.mp h1 with h1 | h1
    · obtain ⟨e, he, heid⟩ := hc.bookToMap o1 (List.mem_append.mpr (Or.inl h1))
      exact ⟨e, by simp [he], heid⟩
    · rcases hmemIns o1 h1 with rfl | h1
      · exact ⟨(i, Side.SELL, p), by simp, rfl⟩
      · obtain ⟨e, he, heid⟩ := hc.bookToMap o1 (List.mem_append.mpr (Or.inr h1))
        exact ⟨e, by simp [he], heid⟩

/-- The invariant is preserved by `addOrder`, for every side, kind,
price and quantity. -/
theorem inv_addOrderFull (b : OrderBook) (hb : Inv b) (sd : Side) (ty : OrderType)
    (p : ℚ) (q : Nat) : Inv (addOrderFull b sd ty p q).book := by
  cases ty with
  | MARKET =>
    cases sd with
    | BUY => exact (inv_after_match_asks b hb (fun _ => true) q).1
    | SELL => exact (inv_after_match_bids b hb (fun _ => true) q).1
  | LIMIT =>
    cases sd with
    | BUY =>
      obtain ⟨hc, hbook, hmap⟩ := inv_after_match_asks b hb (buyGate p) q
      simp only [addOrderFull, matchLimitBuy]
      split
      · exact inv_rest_bids _ hc b.next_order_id .LIMIT p _ (by assumption)
          (Nat.lt_succ_self _)
          (fun o ho => Nat.ne_of_lt (hbook o ho))
          (fun e he => Nat.ne_of_lt (hmap e he))
      · exact hc
    | SELL =>
      obtain ⟨hc, hbook, hmap⟩ := inv_after_match_bids b hb (sellGate p) q
      simp only [addOrderFull, matchLimitSell]
      split
      · exact inv_rest_asks _ hc b.next_order_id .LIMIT p _ (by assumption)
          (Nat.lt_succ_self _)
          (fun o ho => Nat.ne_of_lt (hbook o ho))
          (fun e he => Nat.ne_of_lt (hmap e he))
      · exact hc

/-- The invariant is preserved by `cancelOrder`. -/
theorem inv_cancelOrder (b : OrderBook) (hb : Inv b) (oid : Nat) :
    Inv (cancelOrder b oid).2 := by
  cases hfind : b.order_map.find? (fun e => e.1 == oid) with
  | none =>
    simp only [cancelOrder, hfind]
    exact hb
  | some e =>
    have hmem : e ∈ b.order_map := List.mem_of_find?_eq_some hfind
    have hpe : e.1 = oid := by simpa using List.find?_some hfind
    obtain ⟨o0, ho0, hoid0, hop0⟩ := hb.mapToBook e hmem
    have hndAll := hb.nodupIds
    have hdis : (sideIds b.bids).Disjoint (sideIds b.asks) := by
      have := hb.nodupIds
      rw [allIds_eq] at this
      exact List.disjoint_of_nodup_append this
    cases hside : e.2.1 with
    | BUY =>
      rw [hside] at ho0
      replace ho0 : o0 ∈ sideOrders b.bids := ho0
      have hkeysnd : (b.bids.map Prod.fst).Nodup := hb.keysB.imp (fun h => ne_of_lt h)
      have hloc : ∀ lv ∈ b.bids, ∀ o1 ∈ lv.2, o1.order_id = oid → lv.1 = e.2.2 := by
        intro lv hlv o1 h1 hid
        have h1a : o1 ∈ allOrders b :=
          List.mem_append.mpr (Or.inl (mem_sideOrders_of b.bids lv o1 hlv h1))
        have h0a : o0 ∈ allOrders b := List.mem_append.mpr (Or.inl ho0)
        have heq : o1 = o0 :=
          List.inj_on_of_nodup_map hndAll h1a h0a (by rw [hid, hoid0, hpe])
        rw [← hb.wfB lv hlv o1 h1, heq, hop0]
      have hrm := removeFromSide_removes e.2.2 oid b.bids hkeysnd hloc
      have hsubB := removeFromSide_sublist e.2.2 oid b.bids
      simp only [cancelOrder, hfind, hside]
      refine ⟨?_, ?_, ?_, ?_, ?_, ?_, ?_, ?_, ?_, ?_, ?_, ?_, ?_, ?_⟩
      · intro lv1 hlv1 o1 h1
        replace hlv1 : lv1 ∈ removeFromSide e.2.2 oid b.bids := hlv1
        obtain ⟨lv, hlv, hk, hsub⟩ := removeFromSide_levels e.2.2 oid b.bids lv1 hlv1
        rw [hk]
        exact hb.wfB lv hlv o1 (hsub.subset h1)
      · exact hb.wfA
      · intro o1 h1
        replace h1 : o1 ∈ sideOrders (removeFromSide e.2.2 oid b.bids)
            ++ sideOrders b.asks := h1
        rcases List.mem_append.mp h1 with h1 | h1
        · exact hb.posQty o1 (List.mem_append.mpr (Or.inl (hsubB.subset h1)))
        · exact hb.posQty o1 (List.mem_append.mpr (Or.inr h1))
      · exact removeFromSide_ne e.2.2 oid b.bids hb.neB
      · exact hb.neA
      · exact List.Pairwise.sublist (removeFromSide_keys e.2.2 oid b.bids) hb.keysB
      · exact hb.keysA
      · intro o1 h1
        replace h1 : o1 ∈ sideOrders (removeFromSide e.2.2 oid b.bids)
            ++ sideOrders b.asks := h1
        rcases List.mem_append.mp h1 with h1 | h1
        · exact hb.idsLt o1 (List.mem_append.mpr (Or.inl (hsubB.subset h1)))
        · exact hb.idsLt o1 (List.mem_append.mpr (Or.inr h1))
      · intro e2 he2
        replace he2 : e2 ∈ b.order_map.eraseP (fun x => x.1 == oid) := he2
        exact hb.mapLt e2 ((List.eraseP_sublist b.order_map).subset he2)
      · exact hb.trLt
      · have hsub2 : ((sideOrders (removeFromSide e.2.2 oid b.bids)
            ++ sideOrders b.asks).map Order.order_id).Sublist
            ((allOrders b).map Order.order_id) :=
          (hsubB.append_right (sideOrders b.asks)).map Order.order_id
        exact hsub2.nodup hndAll
      · exact (eraseP_sublist_map b.order_map oid).nodup hb.mapNodup
      · intro e2 he2
        replace he2 : e2 ∈ b.order_map.eraseP (fun x => x.1 == oid) := he2
        rw [eraseP_mem_nodup b.order_map oid hb.mapNodup] at he2
        obtain ⟨hem2, hne2⟩ := he2
        obtain ⟨o2, ho2, hid2, hp2⟩ := hb.mapToBook e2 hem2
        cases hside2 : e2.2.1 with
        | BUY =>
          rw [hside2] at ho2
          replace ho2 : o2 ∈ sideOrders b.bids := ho2
          refine ⟨o2, ?_, hid2, hp2⟩
          exact removeFromSide_keeps e.2.2 oid b.bids o2 ho2 (by rw [hid2]; exact hne2)
        | SELL =>
          rw [hside2] at ho2
          exact ⟨o2, ho2, hid2, hp2⟩
      · intro o1 h1
        replace h1 : o1 ∈ sideOrders (removeFromSide e.2.2 oid b.bids)
            ++ sideOrders b.asks := h1
        rcases List.mem_append.mp h1 with h1 | h1
        · have hne1 : o1.order_id ≠ oid := hrm o1 h1
          obtain ⟨e2, he2, heid2⟩ := hb.bookToMap o1
            (List.mem_append.mpr (Or.inl (hsubB.subset h1)))
          refine ⟨e2, ?_, heid2⟩
          show e2 ∈ b.order_map.eraseP (fun x => x.1 == oid)
          rw [eraseP_mem_nodup b.order_map oid hb.mapNodup]
          exact ⟨he2, by rw [heid2]; exact hne1⟩
        · have hne1 : o1.order_id ≠ oid := by
            intro hid
            have h0 : oid ∈ sideIds b.bids := by
              rw [sideIds, ← hpe, ← hoid0]
              exact List.mem_map_of_mem Order.order_id ho0
            have h2 : oid ∈ sideIds b.asks := by
              rw [sideIds, ← hid]
              exact List.mem_map_of_mem Order.order_id h1
            exact hdis h0 h2
          obtain ⟨e2, he2, heid2⟩ := hb.bookToMap o1 (List.mem_append.mpr (Or.inr h1))
          refine ⟨e2, ?_, heid2⟩
          show e2 ∈ b.order_map.eraseP (fun x => x.1 == oid)
          rw [eraseP_mem_nodup b.order_map oid hb.mapNodup]
          exact ⟨he2, by rw [heid2]; exact hne1⟩
    | SELL =>
      rw [hside] at ho0
      replace ho0 : o0 ∈ sideOrders b.asks := ho0
      have hkeysnd : (b.asks.map Prod.fst).Nodup :=
        hb.keysA.imp (fun h => (ne_of_lt h).symm)
      have hloc : ∀ lv ∈ b.asks, ∀ o1 ∈ lv.2, o1.order_id = oid → lv.1 = e.2.2 := by
        intro lv hlv o1 h1 hid
        have h1a : o1 ∈ allOrders b :=
          List.mem_append.mpr (Or.inr (mem_sideOrders_of b.asks lv o1 hlv h1))
        have h0a : o0 ∈ allOrders b := List.mem_append.mpr (Or.inr ho0)
        have heq : o1 = o0 :=
          List.inj_on_of_nodup_map hndAll h1a h0a (by rw [hid, hoid0, hpe])
        rw [← hb.wfA lv hlv o1 h1, heq, hop0]
      have hrm := removeFromSide_removes e.2.2 oid b.asks hkeysnd hloc
      have hsubA := removeFromSide_sublist e.2.2 oid b.asks
      simp only [cancelOrder, hfind, hside]
      refine ⟨?_, ?_, ?_, ?_, ?_, ?_, ?_, ?_, ?_, ?_, ?_, ?_, ?_, ?_⟩
      · exact hb.wfB
      · intro lv1 hlv1 o1 h1
        replace hlv1 : lv1 ∈ removeFromSide e.2.2 oid b.asks := hlv1
        obtain ⟨lv, hlv, hk, hsub⟩ := removeFromSide_levels e.2.2 oid b.asks lv1 hlv1
        rw [hk]
        exact hb.wfA lv hlv o1 (hsub.subset h1)
      · intro o1 h1
        replace h1 : o1 ∈ sideOrders b.bids
            ++ sideOrders (removeFromSide e.2.2 oid b.asks) := h1
        rcases List.mem_append.mp h1 with h1 | h1
        · exact hb.posQty o1 (List.mem_append.mpr (Or.inl h1))
        · exact hb.posQty o1 (List.mem_append.mpr (Or.inr (hsubA.subset h1)))
      · exact hb.neB
      · exact removeFromSide_ne e.2.2 oid b.asks hb.neA
      · exact hb.keysB
      · exact List.Pairwise.sublist (removeFromSide_keys e.2.2 oid b.asks) hb.keysA
      · intro o1 h1
        replace h1 : o1 ∈ sideOrders b.bids
            ++ sideOrders (removeFromSide e.2.2 oid b.asks) := h1
        rcases List.mem_append.mp h1 with h1 | h1
        · exact hb.idsLt o1 (List.mem_append.mpr (Or.inl h1))
        · exact hb.idsLt o1 (List.mem_append.mpr (Or.inr (hsubA.subset h1)))
      · intro e2 he2
        replace he2 : e2 ∈ b.order_map.eraseP (fun x => x.1 == oid) := he2
        exact hb.mapLt e2 ((List.eraseP_sublist b.order_map).subset he2)
      · exact hb.trLt
      · have hsub2 : ((sideOrders b.bids
            ++ sideOrders (removeFromSide e.2.2 oid b.asks)).map Order.order_id).Sublist
            ((allOrders b).map Order.order_id) :=
          (hsubA.append_left (sideOrders b.bids)).map Order.order_id
        exact hsub2.nodup hndAll
      · exact (eraseP_sublist_map b.order_map oid).nodup hb.mapNodup
      · intro e2 he2
        replace he2 : e2 ∈ b.order_map.eraseP (fun x => x.1 == oid) := he2
        rw [eraseP_mem_nodup b.order_map oid hb.mapNodup] at he2
        obtain ⟨hem2, hne2⟩ := he2
        obtain ⟨o2, ho2, hid2, hp2⟩ := hb.mapToBook e2 hem2
        cases hside2 : e2.2.1 with
        | BUY =>
          rw [hside2] at ho2
          exact ⟨o2, ho2, hid2, hp2⟩
        | SELL =>
          rw [hside2] at ho2
          replace ho2 : o2 ∈ sideOrders b.asks := ho2
          refine ⟨o2, ?_, hid2, hp2⟩
          exact removeFromSide_keeps e.2.2 oid b.asks o2 ho2 (by rw [hid2]; exact hne2)
      · intro o1 h1
        replace h1 : o1 ∈ sideOrders b.bids
            ++ sideOrders (removeFromSide e.2.2 oid b.asks) := h1
        rcases List.mem_append.mp h1 with h1 | h1
        · have hne1 : o1.order_id ≠ oid := by
            intro hid
            have h0 : oid ∈ sideIds b.asks := by
              rw [sideIds, ← hpe, ← hoid0]
              exact List.mem_map_of_mem Order.order_id ho0
            have h2 : oid ∈ sideIds b.bids := by
              rw [sideIds, ← hid]
              exact List.mem_map_of_mem Order.order_id h1
            exact hdis h2 h0
          obtain ⟨e2, he2, heid2⟩ := hb.bookToMap o1 (List.mem_append.mpr (Or.inl h1))
          refine ⟨e2, ?_, heid2⟩
          show e2 ∈ b.order_map.eraseP (fun x => x.1 == oid)
          rw [eraseP_mem_nodup b.order_map oid hb.mapNodup]
          exact ⟨he2, by rw [heid2]; exact hne1⟩
        · have hne1 : o1.order_id ≠ oid := hrm o1 h1
          obtain ⟨e2, he2, heid2⟩ := hb.bookToMap o1
            (List.mem_append.mpr (Or.inr (hsubA.subset h1)))
          refine ⟨e2, ?_, heid2⟩
          show e2 ∈ b.order_map.eraseP (fun x => x.1 == oid)
          rw [eraseP_mem_nodup b.order_map oid hb.mapNodup]
          exact ⟨he2, by rw [heid2]; exact hne1⟩

/-- The invariant is preserved by every command. -/
theorem inv_step (b : OrderBook) (hb : Inv b) (c : Command) : Inv (step b c) := by
  cases c with
  | add sd ty p q => exact inv_addOrderFull b hb sd ty p q
  | cancel oid => exact inv_cancelOrder b hb oid

theorem foldl_inv (cmds : List Command) (b : OrderBook) (hb : Inv b) :
    Inv (cmds.foldl step b) := by
  induction cmds generalizing b with
  | nil => exact hb
  | cons c rest ih => exact ih (step b c) (inv_step b hb c)

/-- Every reachable engine state satisfies the structural invariant. -/
theorem reachable_inv (b : OrderBook) (hb : Reachable b) : Inv b := by
  obtain ⟨cmds, rfl⟩ := hb
  exact foldl_inv cmds OrderBook.empty inv_empty

/-- A side with no resting orders holds no levels (levels are erased
when they empty). -/
theorem sideOrders_eq_nil (s : BookSide) (hne : ∀ lv ∈ s, lv.2 ≠ [])
    (h : sideOrders s = []) : s = [] := by
  cases s with
  | nil => rfl
  | cons lv rest =>
    exfalso
    cases hlv : lv.2 with
    | nil => exact hne lv (by simp) hlv
    | cons o os =>
      have hmem : o ∈ sideOrders (lv :: rest) :=
        mem_sideOrders_of (lv :: rest) lv o (by simp) (by rw [hlv]; simp)
      rw [h] at hmem
      simp at hmem

/-- C10: when a side of the book has no resting orders, the best-price
accessor of that side returns the sentinel 0.0: `getBestBid` returns 0
when there are no resting bids and `getBestAsk` returns 0 when there
are no resting asks. -/
theorem C10_empty_side_returns_zero (b : OrderBook) (hb : Reachable b) :
    (sideOrders b.bids = [] → getBestBid b = 0)
  ∧ (sideOrders b.asks = [] → getBestAsk b = 0) := by
  have hinv := reachable_inv b hb
  constructor
  · intro h
    rw [getBestBid, sideOrders_eq_nil b.bids hinv.neB h]
  · intro h
    rw [getBestAsk, sideOrders_eq_nil b.asks hinv.neA h]

/-- C10 witness: the empty book reports best bid and best ask 0. -/
theorem C10_empty_side_returns_zero_witness :
    getBestBid OrderBook.empty = 0 ∧ getBestAsk OrderBook.empty = 0 :=
  ⟨(C10_empty_side_returns_zero OrderBook.empty ⟨[], rfl⟩).1 rfl,
   (C10_empty_side_returns_zero OrderBook.empty ⟨[], rfl⟩).2 rfl⟩

/-- The trades one `addOrder` call appends to the trade log. -/
def newTrades (b : OrderBook) (sd : Side) (ty : OrderType) (p : ℚ) (q : Nat) :
    List Trade :=
  ((addOrderFull b sd ty p q).book.trade_history).drop b.trade_history.length

theorem newTrades_eq (b : OrderBook) (sd : Side) (ty : OrderType) (p : ℚ) (q : Nat) :
    (∃ gate, newTrades b sd ty p q =
      (matchLoop (match sd with | .BUY => Side.BUY | .SELL => Side.SELL) gate
        b.next_order_id q
        (match sd with | .BUY => b.asks | .SELL => b.bids)).trades) := by
  cases ty with
  | MARKET =>
    cases sd with
    | BUY =>
      refine ⟨fun _ => true, ?_⟩
      show ((b.trade_history
        ++ (matchLoop .BUY (fun _ => true) b.next_order_id q b.asks).trades).drop
          b.trade_history.length) = _
      rw [List.drop_left]
    | SELL =>
      refine ⟨fun _ => true, ?_⟩
      show ((b.trade_history
        ++ (matchLoop .SELL (fun _ => true) b.next_order_id q b.bids).trades).drop
          b.trade_history.length) = _
      rw [List.drop_left]
  | LIMIT =>
    cases sd with
    | BUY =>
      refine ⟨buyGate p, ?_⟩
      rw [newTrades]
      simp only [addOrderFull, matchLimitBuy]
      split
      · show ((b.trade_history ++ _).drop b.trade_history.length) = _
        rw [List.drop_left]
      · show ((b.trade_history ++ _).drop b.trade_history.length) = _
        rw [List.drop_left]
    | SELL =>
      refine ⟨sellGate p, ?_⟩
      rw [newTrades]
      simp only [addOrderFull, matchLimitSell]
      split
      · show ((b.trade_history ++ _).drop b.trade_history.length) = _
        rw [List.drop_left]
      · show ((b.trade_history ++ _).drop b.trade_history.length) = _
        rw [List.drop_left]

/-- C6: every trade emitted by an `addOrder` call on a reachable state
executes at the price of the resting (passive) order it fills: there is
a resting order `o` in the book whose id fills the passive slot of the
trade, whose price is the trade price, while the aggressor slot carries
the incoming order's fresh id. -/
theorem C6_trades_at_passive_price (b : OrderBook) (hb : Reachable b) (sd : Side)
    (ty : OrderType) (p : ℚ) (q : Nat) :
    ∀ t ∈ newTrades b sd ty p q, ∃ o ∈ allOrders b,
      t.price = o.price
      ∧ (sd = .BUY → t.sell_order_id = o.order_id ∧ t.buy_order_id = b.next_order_id)
      ∧ (sd = .SELL → t.buy_order_id = o.order_id ∧ t.sell_order_id = b.next_order_id) := by
  have hinv := reachable_inv b hb
  intro t ht
  obtain ⟨gate, hg⟩ := newTrades_eq b sd ty p q
  rw [hg] at ht
  cases sd with
  | BUY =>
    obtain ⟨lv, hlv, o, ho, he⟩ :=
      matchLoop_trades .BUY gate b.next_order_id q b.asks t ht
    refine ⟨o, List.mem_append.mpr (Or.inr (mem_sideOrders_of b.asks lv o hlv ho)),
      ?_, fun _ => ?_, fun hcon => by simp at hcon⟩
    · rw [he, mkTrade_price, hinv.wfA lv hlv o ho]
    · constructor
      · rw [he]
        rfl
      · rw [he]
        rfl
  | SELL =>
    obtain ⟨lv, hlv, o, ho, he⟩ :=
      matchLoop_trades .SELL gate b.next_order_id q b.bids t ht
    refine ⟨o, List.mem_append.mpr (Or.inl (mem_sideOrders_of b.bids lv o hlv ho)),
      ?_, fun hcon => by simp at hcon, fun _ => ?_⟩
    · rw [he, mkTrade_price, hinv.wfB lv hlv o ho]
    · constructor
      · rw [he]
        rfl
      · rw [he]
        rfl

/-- C6 witness: a single resting ask at 100 filled by a limit buy at
100 yields the trade (2, 1, 100, 5), at the resting order's price. -/
theorem C6_trades_at_passive_price_witness :
    ∃ o ∈ allOrders (run [Command.add .SELL .LIMIT 100 5]),
      (⟨2, 1, 100, 5⟩ : Trade).price = o.price
      ∧ (Side.BUY = Side.BUY →
          (⟨2, 1, 100, 5⟩ : Trade).sell_order_id = o.order_id
          ∧ (⟨2, 1, 100, 5⟩ : Trade).buy_order_id
            = (run [Command.add .SELL .LIMIT 100 5]).next_order_id)
      ∧ (Side.BUY = Side.SELL →
          (⟨2, 1, 100, 5⟩ : Trade).buy_order_id = o.order_id
          ∧ (⟨2, 1, 100, 5⟩ : Trade).sell_order_id
            = (run [Command.add .SELL .LIMIT 100 5]).next_order_id) :=
  C6_trades_at_passive_price (run [Command.add .SELL .LIMIT 100 5]) ⟨_, rfl⟩
    .BUY .LIMIT 100 5 ⟨2, 1, 100, 5⟩ (by decide)

/-! Round-trip of a non-crossing limit add followed by its cancel. -/

/-- When the gate rejects every level, the loop does nothing. -/
theorem matchLoop_nomatch (aggSide : Side) (gate : ℚ → Bool) (aggId : Nat) (qty : Nat)
    (ls : BookSide) (h : ∀ k ∈ ls.map Prod.fst, gate k = false) :
    matchLoop aggSide gate aggId qty ls = ⟨qty, ls, [], []⟩ := by
  cases ls with
  | nil => rfl
  | cons lv rest =>
    obtain ⟨k, os⟩ := lv
    by_cases h0 : qty = 0
    · rw [matchLoop, if_pos h0, h0]
    · rw [matchLoop, if_neg h0, if_neg (by simp [h k (by simp)])]

theorem lessComp_irr (a : ℚ) : lessComp a a = false := by
  simp [lessComp]

theorem greaterComp_irr (a : ℚ) : greaterComp a a = false := by
  simp [greaterComp]

/-- Cancelling a freshly inserted order restores the side exactly. -/
theorem removeFromSide_insertOrder (lt : ℚ → ℚ → Bool)
    (hconn : ∀ a b, ¬ lt a b = true → ¬ lt b a = true → a = b)
    (hirr : ∀ a, lt a a = false)
    (p : ℚ) (o : Order) (s : BookSide)
    (hfresh : ∀ o1 ∈ sideOrders s, o1.order_id ≠ o.order_id)
    (hne : ∀ lv ∈ s, lv.2 ≠ []) :
    removeFromSide p o.order_id (insertOrder lt p o s) = s := by
  induction s with
  | nil => simp [insertOrder, removeFromSide]
  | cons lv rest ih =>
    obtain ⟨k, os⟩ := lv
    by_cases h1 : lt p k = true
    · rw [insertOrder, if_pos h1, removeFromSide, if_pos rfl]
      simp
    · by_cases h2 : lt k p = true
      · have hk : ¬ k = p := by
          intro hkp
          rw [hkp] at h2
          rw [hirr p] at h2
          exact Bool.false_ne_true h2
        rw [insertOrder, if_neg h1, if_pos h2, removeFromSide, if_neg hk]
        rw [ih (fun o1 h => hfresh o1 (by rw [sideOrders_cons]; exact List.mem_append.mpr (Or.inr h)))
          (fun lv2 h => hne lv2 (by simp [h]))]
      · have hkp : k = p := hconn k p h2 h1
        rw [insertOrder, if_neg h1, if_neg h2, removeFromSide, if_pos hkp]
        have hfos : ∀ o1 ∈ os, (!(o1.order_id == o.order_id)) = true := by
          intro o1 h
          have := hfresh o1 (by rw [sideOrders_cons]; exact List.mem_append.mpr (Or.inl h))
          simp [this]
        have hfilter : (os ++ [o]).filter (fun o1 => !(o1.order_id == o.order_id)) = os := by
          rw [List.filter_append, List.filter_eq_self.mpr hfos]
          simp
        rw [hfilter]
        rw [if_neg (by simpa [List.isEmpty_iff] using hne (k, os) (by simp))]

/-- A limit buy priced strictly below every resting ask matches
nothing and rests on the bid side. -/
theorem addOrder_nocross_buy (b : OrderBook) (p : ℚ) (q : Nat) (hq : 0 < q)
    (hnc : ∀ k ∈ b.asks.map Prod.fst, p < k) :
    addOrderFull b .BUY .LIMIT p q = ⟨b.next_order_id, q, { b with
      bids := insertOrder lessComp p ⟨b.next_order_id, .BUY, .LIMIT, p, q⟩ b.bids,
      order_map := b.order_map ++ [(b.next_order_id, Side.BUY, p)],
      next_order_id := b.next_order_id + 1,
      total_orders_processed := b.total_orders_processed + 1 }⟩ := by
  have hml : matchLoop .BUY (buyGate p)
      b.next_order_id q b.asks = ⟨q, b.asks, [], []⟩ :=
    matchLoop_nomatch _ _ _ _ _ (by intro k hk; simp [buyGate, hnc k hk])
  simp only [addOrderFull, matchLimitBuy, hml]
  rw [if_pos hq]
  simp [eraseIds_nil]

/-- A limit sell priced strictly above every resting bid matches
nothing and rests on the ask side. -/
theorem addOrder_nocross_sell (b : OrderBook) (p : ℚ) (q : Nat) (hq : 0 < q)
    (hnc : ∀ k ∈ b.bids.map Prod.fst, k < p) :
    addOrderFull b .SELL .LIMIT p q = ⟨b.next_order_id, q, { b with
      asks := insertOrder greaterComp p ⟨b.next_order_id, .SELL, .LIMIT, p, q⟩ b.asks,
      order_map := b.order_map ++ [(b.next_order_id, Side.SELL, p)],
      next_order_id := b.next_order_id + 1,
      total_orders_processed := b.total_orders_processed + 1 }⟩ := by
  have hml : matchLoop .SELL (sellGate p)
      b.next_order_id q b.bids = ⟨q, b.bids, [], []⟩ :=
    matchLoop_nomatch _ _ _ _ _ (by intro k hk; simp [sellGate, hnc k hk])
  simp only [addOrderFull, matchLimitSell, hml]
  rw [if_pos hq]
  simp [eraseIds_nil]

/-- C8: on any reachable state, adding a limit order that does not
cross the opposite side (strictly beyond every opposite level) and
immediately cancelling it succeeds and restores both sides of the
book, the order index and the trade log exactly; only the order-id
counter has advanced. -/
theorem C8_add_then_cancel_roundtrip (b : OrderBook) (hb : Reachable b) (sd : Side)
    (p : ℚ) (q : Nat) (hq : 0 < q)
    (hnc : (sd = .BUY → ∀ k ∈ b.asks.map Prod.fst, p < k)
         ∧ (sd = .SELL → ∀ k ∈ b.bids.map Prod.fst, k < p)) :
    (cancelOrder (addOrder b sd .LIMIT p q).2 (addOrder b sd .LIMIT p q).1).1 = true
  ∧ (cancelOrder (addOrder b sd .LIMIT p q).2 (addOrder b sd .LIMIT p q).1).2.bids = b.bids
  ∧ (cancelOrder (addOrder b sd .LIMIT p q).2 (addOrder b sd .LIMIT p q).1).2.asks = b.asks
  ∧ (cancelOrder (addOrder b sd .LIMIT p q).2
      (addOrder b sd .LIMIT p q).1).2.order_map = b.order_map
  ∧ (cancelOrder (addOrder b sd .LIMIT p q).2
      (addOrder b sd .LIMIT p q).1).2.trade_history = b.trade_history
  ∧ (cancelOrder (addOrder b sd .LIMIT p q).2
      (addOrder b sd .LIMIT p q).1).2.next_order_id = b.next_order_id + 1 := by
  have hinv := reachable_inv b hb
  have hfreshM : ∀ e ∈ b.order_map, e.1 ≠ b.next_order_id :=
    fun e he => Nat.ne_of_lt (hinv.mapLt e he)
  cases sd with
  | BUY =>
    have haddeq := addOrder_nocross_buy b p q hq (hnc.1 rfl)
    have hfind : (b.order_map ++ [(b.next_order_id, Side.BUY, p)]).find?
        (fun e => e.1 == b.next_order_id) = some (b.next_order_id, Side.BUY, p) :=
      find?_append_singleton b.order_map b.next_order_id (Side.BUY, p) hfreshM
    have hrb : removeFromSide p b.next_order_id
        (insertOrder lessComp p ⟨b.next_order_id, .BUY, .LIMIT, p, q⟩ b.bids) = b.bids :=
      removeFromSide_insertOrder lessComp lessComp_conn lessComp_irr p
        ⟨b.next_order_id, .BUY, .LIMIT, p, q⟩ b.bids
        (fun o2 ho2 => Nat.ne_of_lt (hinv.idsLt o2 (List.mem_append.mpr (Or.inl ho2))))
        hinv.neB
    have hmap2 : (b.order_map ++ [(b.next_order_id, Side.BUY, p)]).eraseP
        (fun x => x.1 == b.next_order_id) = b.order_map :=
      eraseP_append_singleton b.order_map b.next_order_id (Side.BUY, p) hfreshM
    simp only [addOrder, haddeq]
    simp only [cancelOrder, hfind]
    exact ⟨trivial, hrb, trivial, hmap2, trivial, trivial⟩
  | SELL =>
    have haddeq := addOrder_nocross_sell b p q hq (hnc.2 rfl)
    have hfind : (b.order_map ++ [(b.next_order_id, Side.SELL, p)]).find?
        (fun e => e.1 == b.next_order_id) = some (b.next_order_id, Side.SELL, p) :=
      find?_append_singleton b.order_map b.next_order_id (Side.SELL, p) hfreshM
    have hra : removeFromSide p b.next_order_id
        (insertOrder greaterComp p ⟨b.next_order_id, .SELL, .LIMIT, p, q⟩ b.asks)
        = b.asks :=
      removeFromSide_insertOrder greaterComp greaterComp_conn greaterComp_irr p
        ⟨b.next_order_id, .SELL, .LIMIT, p, q⟩ b.asks
        (fun o2 ho2 => Nat.ne_of_lt (hinv.idsLt o2 (List.mem_append.mpr (Or.inr ho2))))
        hinv.neA
    have hmap2 : (b.order_map ++ [(b.next_order_id, Side.SELL, p)]).eraseP
        (fun x => x.1 == b.next_order_id) = b.order_map :=
      eraseP_append_singleton b.order_map b.next_order_id (Side.SELL, p) hfreshM
    simp only [addOrder, haddeq]
    simp only [cancelOrder, hfind]
    exact ⟨trivial, trivial, hra, hmap2, trivial, trivial⟩

/-- C8 witness: with one resting ask at 100.50, adding a limit buy at
99 for 10 and cancelling it restores the book. -/
theorem C8_add_then_cancel_roundtrip_witness :
    (cancelOrder (addOrder (run [Command.add .SELL .LIMIT (mkRat 10050 100) 100])
        .BUY .LIMIT 99 10).2
      (addOrder (run [Command.add .SELL .LIMIT (mkRat 10050 100) 100])
        .BUY .LIMIT 99 10).1).1 = true
  ∧ (cancelOrder (addOrder (run [Command.add .SELL .LIMIT (mkRat 10050 100) 100])
        .BUY .LIMIT 99 10).2
      (addOrder (run [Command.add .SELL .LIMIT (mkRat 10050 100) 100])
        .BUY .LIMIT 99 10).1).2.bids
      = (run [Command.add .SELL .LIMIT (mkRat 10050 100) 100]).bids
  ∧ (cancelOrder (addOrder (run [Command.add .SELL .LIMIT (mkRat 10050 100) 100])
        .BUY .LIMIT 99 10).2
      (addOrder (run [Command.add .SELL .LIMIT (mkRat 10050 100) 100])
        .BUY .LIMIT 99 10).1).2.asks
      = (run [Command.add .SELL .LIMIT (mkRat 10050 100) 100]).asks
  ∧ (cancelOrder (addOrder (run [Command.add .SELL .LIMIT (mkRat 10050 100) 100])
        .BUY .LIMIT 99 10).2
      (addOrder (run [Command.add .SELL .LIMIT (mkRat 10050 100) 100])
        .BUY .LIMIT 99 10).1).2.order_map
      = (run [Command.add .SELL .LIMIT (mkRat 10050 100) 100]).order_map
  ∧ (cancelOrder (addOrder (run [Command.add .SELL .LIMIT (mkRat 10050 100) 100])
        .BUY .LIMIT 99 10).2
      (addOrder (run [Command.add .SELL .LIMIT (mkRat 10050 100) 100])
        .BUY .LIMIT 99 10).1).2.trade_history
      = (run [Command.add .SELL .LIMIT (mkRat 10050 100) 100]).trade_history
  ∧ (cancelOrder (addOrder (run [Command.add .SELL .LIMIT (mkRat 10050 100) 100])
        .BUY .LIMIT 99 10).2
      (addOrder (run [Command.add .SELL .LIMIT (mkRat 10050 100) 100])
        .BUY .LIMIT 99 10).1).2.next_order_id
      = (run [Command.add .SELL .LIMIT (mkRat 10050 100) 100]).next_order_id + 1 :=
  C8_add_then_cancel_roundtrip (run [Command.add .SELL .LIMIT (mkRat 10050 100) 100])
    ⟨_, rfl⟩ .BUY 99 10 (by decide)
    ⟨fun _ => by decide, fun h => absurd h (by decide)⟩

/-! Ghost-instrumented runs: the engine state paired with the accepted
orders and the quantities the engine removed from circulation, either
by a successful cancel or by silently dropping a market residual.  The
ghost fields are derived bookkeeping; the book component evolves
exactly as in `run`. -/

structure GState where
  book : OrderBook
  accepted : List (Nat × Nat)
  cancelled : List (Nat × Nat)
  discarded : List (Nat × Nat)

def ginit : GState := ⟨OrderBook.empty, [], [], []⟩

/-- One command, with ghost accounting: an add records the assigned id
with the submitted quantity, and for a market order the residual the
engine drops; a successful cancel records the resting quantity the
removal took out of the book. -/
def gstep (g : GState) : Command → GState
  | .add sd ty p q =>
    let r := addOrderFull g.book sd ty p q
    { book := r.book,
      accepted := g.accepted ++ [(r.id, q)],
      cancelled := g.cancelled,
      discarded := match ty with
        | .MARKET => g.discarded ++ [(r.id, r.leftover)]
        | .LIMIT => g.discarded }
  | .cancel oid =>
    let c := cancelOrder g.book oid
    if c.1 then
      { book := c.2,
        accepted := g.accepted,
        cancelled := g.cancelled ++ [(oid, bookQty oid g.book - bookQty oid c.2)],
        discarded := g.discarded }
    else
      { book := c.2,
        accepted := g.accepted,
        cancelled := g.cancelled,
        discarded := g.discarded }

def grun (cmds : List Command) : GState := cmds.foldl gstep ginit

theorem gstep_book (g : GState) (c : Command) : (gstep g c).book = step g.book c := by
  cases c with
  | add sd ty p q => cases ty <;> rfl
  | cancel oid =>
    simp only [gstep, step]
    split <;> rfl

theorem foldl_gstep_book (cmds : List Command) (g : GState) :
    (cmds.foldl gstep g).book = cmds.foldl step g.book := by
  induction cmds generalizing g with
  | nil => rfl
  | cons c rest ih => rw [List.foldl_cons, List.foldl_cons, ih, gstep_book]

/-- The instrumented run follows the engine run. -/
theorem grun_book (cmds : List Command) : (grun cmds).book = run cmds :=
  foldl_gstep_book cmds ginit

theorem ordersQty_perm (oid : Nat) (l1 l2 : List Order) (h : l1.Perm l2) :
    ordersQty oid l1 = ordersQty oid l2 := by
  rw [ordersQty, ordersQty]
  exact ((h.filter _).map _).sum_eq

theorem removedSum_eq_zero (oid : Nat) (l : List (Nat × Nat))
    (h : ∀ e ∈ l, e.1 ≠ oid) : removedSum oid l = 0 := by
  induction l with
  | nil => rfl
  | cons e rest ih =>
    rw [removedSum, List.filter_cons_of_neg (by simp [h e (by simp)])]
    exact ih fun e1 he1 => h e1 (by simp [he1])

theorem removedSum_append_singleton (oid i q : Nat) (l : List (Nat × Nat)) :
    removedSum oid (l ++ [(i, q)])
      = removedSum oid l + (if i = oid then q else 0) := by
  by_cases h : i = oid
  · rw [removedSum, removedSum, List.filter_append,
      List.filter_cons_of_pos (by simp [h]), if_pos h]
    simp
  · rw [removedSum, removedSum, List.filter_append,
      List.filter_cons_of_neg (by simp [h]), if_neg h]
    simp

theorem bookQty_split (oid : Nat) (b : OrderBook) :
    bookQty oid b = ordersQty oid (sideOrders b.bids)
      + ordersQty oid (sideOrders b.asks) := by
  rw [bookQty, allOrders, ordersQty_append]

/-- A fresh id has no resting quantity on the surviving passive side. -/
theorem fresh_zero_after_match (aggSide : Side) (gate : ℚ → Bool) (i q : Nat)
    (ls : BookSide) (h : ∀ o ∈ sideOrders ls, o.order_id ≠ i) :
    ordersQty i (sideOrders (matchLoop aggSide gate i q ls).levels) = 0 := by
  refine ordersQty_eq_zero i _ ?_
  intro o1 ho1
  obtain ⟨o2, ho2, hid, -, -, -⟩ := matchLoop_orders_mem aggSide gate i q ls o1 ho1
  rw [hid]
  exact h o2 ho2

/-- Branch equation: a limit buy whose residual rests. -/
theorem addOrderFull_limit_buy_rest (b : OrderBook) (p : ℚ) (q : Nat)
    (hpos : 0 < (matchLoop .BUY (buyGate p) b.next_order_id q b.asks).qty) :
    addOrderFull b .BUY .LIMIT p q =
      ⟨b.next_order_id, (matchLoop .BUY (buyGate p) b.next_order_id q b.asks).qty,
       { bids := insertOrder lessComp p
           ⟨b.next_order_id, .BUY, .LIMIT, p,
             (matchLoop .BUY (buyGate p) b.next_order_id q b.asks).qty⟩ b.bids,
         asks := (matchLoop .BUY (buyGate p) b.next_order_id q b.asks).levels,
         order_map := eraseIds (matchLoop .BUY (buyGate p) b.next_order_id q b.asks).filledIds
             b.order_map ++ [(b.next_order_id, Side.BUY, p)],
         trade_history := b.trade_history
           ++ (matchLoop .BUY (buyGate p) b.next_order_id q b.asks).trades,
         next_order_id := b.next_order_id + 1,
         total_orders_processed := b.total_orders_processed + 1,
         total_trades := b.total_trades
           + (matchLoop .BUY (buyGate p) b.next_order_id q b.asks).trades.length }⟩ := by
  simp only [addOrderFull, matchLimitBuy]
  rw [if_pos hpos]

/-- Branch equation: a limit buy that is fully filled rests nothing. -/
theorem addOrderFull_limit_buy_norest (b : OrderBook) (p : ℚ) (q : Nat)
    (hpos : ¬ 0 < (matchLoop .BUY (buyGate p) b.next_order_id q b.asks).qty) :
    addOrderFull b .BUY .LIMIT p q =
      ⟨b.next_order_id, 0,
       { b with
         asks := (matchLoop .BUY (buyGate p) b.next_order_id q b.asks).levels,
         order_map := eraseIds (matchLoop .BUY (buyGate p) b.next_order_id q b.asks).filledIds
           b.order_map,
         trade_history := b.trade_history
           ++ (matchLoop .BUY (buyGate p) b.next_order_id q b.asks).trades,
         next_order_id := b.next_order_id + 1,
         total_orders_processed := b.total_orders_processed + 1,
         total_trades := b.total_trades
           + (matchLoop .BUY (buyGate p) b.next_order_id q b.asks).trades.length }⟩ := by
  simp only [addOrderFull, matchLimitBuy]
  rw [if_neg hpos]

/-- Branch equation: a limit sell whose residual rests. -/
theorem addOrderFull_limit_sell_rest (b : OrderBook) (p : ℚ) (q : Nat)
    (hpos : 0 < (matchLoop .SELL (sellGate p) b.next_order_id q b.bids).qty) :
    addOrderFull b .SELL .LIMIT p q =
      ⟨b.next_order_id, (matchLoop .SELL (sellGate p) b.next_order_id q b.bids).qty,
       { bids := (matchLoop .SELL (sellGate p) b.next_order_id q b.bids).levels,
         asks := insertOrder greaterComp p
           ⟨b.next_order_id, .SELL, .LIMIT, p,
             (matchLoop .SELL (sellGate p) b.next_order_id q b.bids).qty⟩ b.asks,
         order_map := eraseIds (matchLoop .SELL (sellGate p) b.next_order_id q b.bids).filledIds
             b.order_map ++ [(b.next_order_id, Side.SELL, p)],
         trade_history := b.trade_history
           ++ (matchLoop .SELL (sellGate p) b.next_order_id q b.bids).trades,
         next_order_id := b.next_order_id + 1,
         total_orders_processed := b.total_orders_processed + 1,
         total_trades := b.total_trades
           + (matchLoop .SELL (sellGate p) b.next_order_id q b.bids).trades.length }⟩ := by
  simp only [addOrderFull, matchLimitSell]
  rw [if_pos hpos]

/-- Branch equation: a limit sell that is fully filled rests nothing. -/
theorem addOrderFull_limit_sell_norest (b : OrderBook) (p : ℚ) (q : Nat)
    (hpos : ¬ 0 < (matchLoop .SELL (sellGate p) b.next_order_id q b.bids).qty) :
    addOrderFull b .SELL .LIMIT p q =
      ⟨b.next_order_id, 0,
       { b with
         bids := (matchLoop .SELL (sellGate p) b.next_order_id q b.bids).levels,
         order_map := eraseIds (matchLoop .SELL (sellGate p) b.next_order_id q b.bids).filledIds
           b.order_map,
         trade_history := b.trade_history
           ++ (matchLoop .SELL (sellGate p) b.next_order_id q b.bids).trades,
         next_order_id := b.next_order_id + 1,
         total_orders_processed := b.total_orders_processed + 1,
         total_trades := b.total_trades
           + (matchLoop .SELL (sellGate p) b.next_order_id q b.bids).trades.length }⟩ := by
  simp only [addOrderFull, matchLimitSell]
  rw [if_neg hpos]

/-- Full quantity accounting for one `addOrder` call on an invariant
state: the id counter advances, the trade log grows by a batch T, the
resting quantity of every pre-existing id drops by exactly what T
fills against it, every trade of T names the fresh id, the fresh id's
fills plus its final resting quantity plus the market residual equal
the submitted quantity, and every index id is an old id or the fresh
one. -/
theorem addOrder_accounting (b : OrderBook) (hb : Inv b) (sd : Side) (ty : OrderType)
    (p : ℚ) (q : Nat) :
    ∃ T : List Trade,
      (addOrderFull b sd ty p q).book.trade_history = b.trade_history ++ T
    ∧ (addOrderFull b sd ty p q).book.next_order_id = b.next_order_id + 1
    ∧ (∀ oid, oid ≠ b.next_order_id →
        bookQty oid b = bookQty oid (addOrderFull b sd ty p q).book
          + tradesQtyNaming oid T)
    ∧ (∀ t ∈ T, t.buy_order_id = b.next_order_id ∨ t.sell_order_id = b.next_order_id)
    ∧ (tradesQtyNaming b.next_order_id T
        + bookQty b.next_order_id (addOrderFull b sd ty p q).book
        + (match ty with
            | OrderType.MARKET => (addOrderFull b sd ty p q).leftover
            | OrderType.LIMIT => 0) = q)
    ∧ (∀ x ∈ (addOrderFull b sd ty p q).book.order_map,
        (∃ e ∈ b.order_map, e.1 = x.1) ∨ x.1 = b.next_order_id) := by
  have hfreshB : ∀ o ∈ sideOrders b.bids, o.order_id ≠ b.next_order_id :=
    fun o ho => Nat.ne_of_lt (hb.idsLt o (List.mem_append.mpr (Or.inl ho)))
  have hfreshA : ∀ o ∈ sideOrders b.asks, o.order_id ≠ b.next_order_id :=
    fun o ho => Nat.ne_of_lt (hb.idsLt o (List.mem_append.mpr (Or.inr ho)))
  have hzeroB : ordersQty b.next_order_id (sideOrders b.bids) = 0 :=
    ordersQty_eq_zero _ _ hfreshB
  have hzeroA : ordersQty b.next_order_id (sideOrders b.asks) = 0 :=
    ordersQty_eq_zero _ _ hfreshA
  cases ty with
  | MARKET =>
    cases sd with
    | BUY =>
      have hnm : ∀ t ∈ (matchLoop .BUY (fun _ => true) b.next_order_id q b.asks).trades,
          t.buy_order_id = b.next_order_id ∨ t.sell_order_id = b.next_order_id := by
        intro t ht
        obtain ⟨lv, hlv, o, ho, he⟩ :=
          matchLoop_trades .BUY (fun _ => true) b.next_order_id q b.asks t ht
        rw [he]
        exact Or.inl rfl
      refine ⟨(matchLoop .BUY (fun _ => true) b.next_order_id q b.asks).trades,
        rfl, rfl, ?_, hnm, ?_, ?_⟩
      · intro oid hne
        have h1 := matchLoop_passive .BUY (fun _ => true) b.next_order_id q b.asks oid
          (Ne.symm hne)
        simp only [addOrderFull, matchMarketBuy, bookQty, allOrders, ordersQty_append]
        omega
      · have hsum := tradesQtyNaming_eq_sumQ b.next_order_id _ hnm
        have hqq := matchLoop_qty .BUY (fun _ => true) b.next_order_id q b.asks
        have hz := fresh_zero_after_match .BUY (fun _ => true) b.next_order_id q b.asks hfreshA
        simp only [addOrderFull, matchMarketBuy, bookQty, allOrders, ordersQty_append]
        omega
      · intro x hx
        replace hx : x ∈ eraseIds
            (matchLoop .BUY (fun _ => true) b.next_order_id q b.asks).filledIds
            b.order_map := hx
        exact Or.inl ⟨x, (eraseIds_sublist _ _).subset hx, rfl⟩
    | SELL =>
      have hnm : ∀ t ∈ (matchLoop .SELL (fun _ => true) b.next_order_id q b.bids).trades,
          t.buy_order_id = b.next_order_id ∨ t.sell_order_id = b.next_order_id := by
        intro t ht
        obtain ⟨lv, hlv, o, ho, he⟩ :=
          matchLoop_trades .SELL (fun _ => true) b.next_order_id q b.bids t ht
        rw [he]
        exact Or.inr rfl
      refine ⟨(matchLoop .SELL (fun _ => true) b.next_order_id q b.bids).trades,
        rfl, rfl, ?_, hnm, ?_, ?_⟩
      · intro oid hne
        have h1 := matchLoop_passive .SELL (fun _ => true) b.next_order_id q b.bids oid
          (Ne.symm hne)
        simp only [addOrderFull, matchMarketSell, bookQty, allOrders, ordersQty_append]
        omega
      · have hsum := tradesQtyNaming_eq_sumQ b.next_order_id _ hnm
        have hqq := matchLoop_qty .SELL (fun _ => true) b.next_order_id q b.bids
        have hz := fresh_zero_after_match .SELL (fun _ => true) b.next_order_id q b.bids hfreshB
        simp only [addOrderFull, matchMarketSell, bookQty, allOrders, ordersQty_append]
        omega
      · intro x hx
        replace hx : x ∈ eraseIds
            (matchLoop .SELL (fun _ => true) b.next_order_id q b.bids).filledIds
            b.order_map := hx
        exact Or.inl ⟨x, (eraseIds_sublist _ _).subset hx, rfl⟩
  | LIMIT =>
    cases sd with
    | BUY =>
      have hnm : ∀ t ∈ (matchLoop .BUY (buyGate p) b.next_order_id q b.asks).trades,
          t.buy_order_id = b.next_order_id ∨ t.sell_order_id = b.next_order_id := by
        intro t ht
        obtain ⟨lv, hlv, o, ho, he⟩ :=
          matchLoop_trades .BUY (buyGate p) b.next_order_id q b.asks t ht
        rw [he]
        exact Or.inl rfl
      have hsum := tradesQtyNaming_eq_sumQ b.next_order_id _ hnm
      have hqq := matchLoop_qty .BUY (buyGate p) b.next_order_id q b.asks
      have hz := fresh_zero_after_match .BUY (buyGate p) b.next_order_id q b.asks hfreshA
      by_cases hpos : 0 < (matchLoop .BUY (buyGate p) b.next_order_id q b.asks).qty
      · have hperm := insertOrder_perm lessComp p
          ⟨b.next_order_id, .BUY, .LIMIT, p,
            (matchLoop .BUY (buyGate p) b.next_order_id q b.asks).qty⟩ b.bids
        refine ⟨(matchLoop .BUY (buyGate p) b.next_order_id q b.asks).trades,
          ?_, ?_, ?_, hnm, ?_, ?_⟩
        · rw [addOrderFull_limit_buy_rest b p q hpos]
        · rw [addOrderFull_limit_buy_rest b p q hpos]
        · intro oid hne
          have h1 := matchLoop_passive .BUY (buyGate p) b.next_order_id q b.asks oid
            (Ne.symm hne)
          have h4 := ordersQty_perm oid _ _ hperm
          rw [ordersQty_cons, if_neg (fun hh => hne hh.symm)] at h4
          rw [addOrderFull_limit_buy_rest b p q hpos]
          simp only [bookQty, allOrders, ordersQty_append]
          omega
        · have h4 := ordersQty_perm b.next_order_id _ _ hperm
          rw [ordersQty_cons, if_pos rfl, hzeroB] at h4
          have h5 : ordersQty b.next_order_id (sideOrders (insertOrder lessComp p
              ⟨b.next_order_id, .BUY, .LIMIT, p,
                (matchLoop .BUY (buyGate p) b.next_order_id q b.asks).qty⟩ b.bids))
              = (matchLoop .BUY (buyGate p) b.next_order_id q b.asks).qty + 0 := h4
          rw [addOrderFull_limit_buy_rest b p q hpos]
          simp only [bookQty, allOrders, ordersQty_append]
          omega
        · intro x hx
          rw [addOrderFull_limit_buy_rest b p q hpos] at hx
          replace hx : x ∈ eraseIds
              (matchLoop .BUY (buyGate p) b.next_order_id q b.asks).filledIds b.order_map
              ++ [(b.next_order_id, Side.BUY, p)] := hx
          rcases List.mem_append.mp hx with hx | hx
          · exact Or.inl ⟨x, (eraseIds_sublist _ _).subset hx, rfl⟩
          · rw [List.mem_singleton] at hx
            right
            rw [hx]
      · refine ⟨(matchLoop .BUY (buyGate p) b.next_order_id q b.asks).trades,
          ?_, ?_, ?_, hnm, ?_, ?_⟩
        · rw [addOrderFull_limit_buy_norest b p q hpos]
        · rw [addOrderFull_limit_buy_norest b p q hpos]
        · intro oid hne
          have h1 := matchLoop_passive .BUY (buyGate p) b.next_order_id q b.asks oid
            (Ne.symm hne)
          rw [addOrderFull_limit_buy_norest b p q hpos]
          simp only [bookQty, allOrders, ordersQty_append]
          omega
        · have h0 : (matchLoop .BUY (buyGate p) b.next_order_id q b.asks).qty = 0 := by
            omega
          rw [addOrderFull_limit_buy_norest b p q hpos]
          simp only [bookQty, allOrders, ordersQty_append]
          omega
        · intro x hx
          rw [addOrderFull_limit_buy_norest b p q hpos] at hx
          replace hx : x ∈ eraseIds
              (matchLoop .BUY (buyGate p) b.next_order_id q b.asks).filledIds
              b.order_map := hx
          exact Or.inl ⟨x, (eraseIds_sublist _ _).subset hx, rfl⟩
    | SELL =>
      have hnm : ∀ t ∈ (matchLoop .SELL (sellGate p) b.next_order_id q b.bids).trades,
          t.buy_order_id = b.next_order_id ∨ t.sell_order_id = b.next_order_id := by
        intro t ht
        obtain ⟨lv, hlv, o, ho, he⟩ :=
          matchLoop_trades .SELL (sellGate p) b.next_order_id q b.bids t ht
        rw [he]
        exact Or.inr rfl
      have hsum := tradesQtyNaming_eq_sumQ b.next_order_id _ hnm
      have hqq := matchLoop_qty .SELL (sellGate p) b.next_order_id q b.bids
      have hz := fresh_zero_after_match .SELL (sellGate p) b.next_order_id q b.bids hfreshB
      by_cases hpos : 0 < (matchLoop .SELL (sellGate p) b.next_order_id q b.bids).qty
      · have hperm := insertOrder_perm greaterComp p
          ⟨b.next_order_id, .SELL, .LIMIT, p,
            (matchLoop .SELL (sellGate p) b.next_order_id q b.bids).qty⟩ b.asks
        refine ⟨(matchLoop .SELL (sellGate p) b.next_order_id q b.bids).trades,
          ?_, ?_, ?_, hnm, ?_, ?_⟩
        · rw [addOrderFull_limit_sell_rest b p q hpos]
        · rw [addOrderFull_limit_sell_rest b p q hpos]
        · intro oid hne
          have h1 := matchLoop_passive .SELL (sellGate p) b.next_order_id q b.bids oid
            (Ne.symm hne)
          have h4 := ordersQty_perm oid _ _ hperm
          rw [ordersQty_cons, if_neg (fun hh => hne hh.symm)] at h4
          rw [addOrderFull_limit_sell_rest b p q hpos]
          simp only [bookQty, allOrders, ordersQty_append]
          omega
        · have h4 := ordersQty_perm b.next_order_id _ _ hperm
          rw [ordersQty_cons, if_pos rfl, hzeroA] at h4
          have h5 : ordersQty b.next_order_id (sideOrders (insertOrder greaterComp p
              ⟨b.next_order_id, .SELL, .LIMIT, p,
                (matchLoop .SELL (sellGate p) b.next_order_id q b.bids).qty⟩ b.asks))
              = (matchLoop .SELL (sellGate p) b.next_order_id q b.bids).qty + 0 := h4
          rw [addOrderFull_limit_sell_rest b p q hpos]
          simp only [bookQty, allOrders, ordersQty_append]
          omega
        · intro x hx
          rw [addOrderFull_limit_sell_rest b p q hpos] at hx
          replace hx : x ∈ eraseIds
              (matchLoop .SELL (sellGate p) b.next_order_id q b.bids).filledIds b.order_map
              ++ [(b.next_order_id, Side.SELL, p)] := hx
          rcases List.mem_append.mp hx with hx | hx
          · exact Or.inl ⟨x, (eraseIds_sublist _ _).subset hx, rfl⟩
          · rw [List.mem_singleton] at hx
            right
            rw [hx]
      · refine ⟨(matchLoop .SELL (sellGate p) b.next_order_id q b.bids).trades,
          ?_, ?_, ?_, hnm, ?_, ?_⟩
        · rw [addOrderFull_limit_sell_norest b p q hpos]
        · rw [addOrderFull_limit_sell_norest b p q hpos]
        · intro oid hne
          have h1 := matchLoop_passive .SELL (sellGate p) b.next_order_id q b.bids oid
            (Ne.symm hne)
          rw [addOrderFull_limit_sell_norest b p q hpos]
          simp only [bookQty, allOrders, ordersQty_append]
          omega
        · have h0 : (matchLoop .SELL (sellGate p) b.next_order_id q b.bids).qty = 0 := by
            omega
          rw [addOrderFull_limit_sell_norest b p q hpos]
          simp only [bookQty, allOrders, ordersQty_append]
          omega
        · intro x hx
          rw [addOrderFull_limit_sell_norest b p q hpos] at hx
          replace hx : x ∈ eraseIds
              (matchLoop .SELL (sellGate p) b.next_order_id q b.bids).filledIds
              b.order_map := hx
          exact Or.inl ⟨x, (eraseIds_sublist _ _).subset hx, rfl⟩

/-- The assigned id is always the pre-call id counter. -/
theorem addOrderFull_id (b : OrderBook) (sd : Side) (ty : OrderType) (p : ℚ) (q : Nat) :
    (addOrderFull b sd ty p q).id = b.next_order_id := by
  cases ty <;> cases sd <;> rfl

/-- Quantity and bookkeeping effects of one `cancelOrder` call: the
trade log and id counter never change, other ids keep their resting
quantity, the target id's resting quantity does not grow, index ids
only disappear, a successful cancel leaves no index entry under the
id, and a failed cancel leaves the state untouched. -/
theorem cancel_accounting (b : OrderBook) (hb : Inv b) (oid : Nat) :
    (cancelOrder b oid).2.trade_history = b.trade_history
  ∧ (cancelOrder b oid).2.next_order_id = b.next_order_id
  ∧ (∀ j, j ≠ oid → bookQty j (cancelOrder b oid).2 = bookQty j b)
  ∧ bookQty oid (cancelOrder b oid).2 ≤ bookQty oid b
  ∧ (∀ x ∈ (cancelOrder b oid).2.order_map, ∃ e ∈ b.order_map, e.1 = x.1)
  ∧ ((cancelOrder b oid).1 = true → ∀ x ∈ (cancelOrder b oid).2.order_map, x.1 ≠ oid)
  ∧ ((cancelOrder b oid).1 = false → (cancelOrder b oid).2 = b) := by
  cases hfind : b.order_map.find? (fun e => e.1 == oid) with
  | none =>
    simp only [cancelOrder, hfind]
    exact ⟨trivial, trivial, fun j hj => trivial, Nat.le_refl _, fun x hx => ⟨x, hx, rfl⟩,
      fun h => absurd h (by simp), fun h => trivial⟩
  | some e =>
    cases hside : e.2.1 with
    | BUY =>
      simp only [cancelOrder, hfind, hside]
      refine ⟨trivial, trivial, ?_, ?_, ?_, ?_, ?_⟩
      · intro j hj
        have h1 := removeFromSide_other e.2.2 oid j hj b.bids
        simp only [bookQty, allOrders, ordersQty_append]
        omega
      · have h1 := ordersQty_sublist oid _ _ (removeFromSide_sublist e.2.2 oid b.bids)
        simp only [bookQty, allOrders, ordersQty_append]
        omega
      · intro x hx
        replace hx : x ∈ b.order_map.eraseP (fun y => y.1 == oid) := hx
        exact ⟨x, (List.eraseP_sublist b.order_map).subset hx, rfl⟩
      · intro h x hx
        replace hx : x ∈ b.order_map.eraseP (fun y => y.1 == oid) := hx
        exact ((eraseP_mem_nodup b.order_map oid hb.mapNodup x).mp hx).2
      · intro h
        exact absurd h (by simp)
    | SELL =>
      simp only [cancelOrder, hfind, hside]
      refine ⟨trivial, trivial, ?_, ?_, ?_, ?_, ?_⟩
      · intro j hj
        have h1 := removeFromSide_other e.2.2 oid j hj b.asks
        simp only [bookQty, allOrders, ordersQty_append]
        omega
      · have h1 := ordersQty_sublist oid _ _ (removeFromSide_sublist e.2.2 oid b.asks)
        simp only [bookQty, allOrders, ordersQty_append]
        omega
      · intro x hx
        replace hx : x ∈ b.order_map.eraseP (fun y => y.1 == oid) := hx
        exact ⟨x, (List.eraseP_sublist b.order_map).subset hx, rfl⟩
      · intro h x hx
        replace hx : x ∈ b.order_map.eraseP (fun y => y.1 == oid) := hx
        exact ((eraseP_mem_nodup b.order_map oid hb.mapNodup x).mp hx).2
      · intro h
        exact absurd h (by simp)

/-- A successful cancel targets an id present in the index. -/
theorem cancelOrder_true_mem (b : OrderBook) (oid : Nat)
    (h : (cancelOrder b oid).1 = true) : ∃ e ∈ b.order_map, e.1 = oid := by
  cases hfind : b.order_map.find? (fun e => e.1 == oid) with
  | none =>
    rw [cancelOrder, hfind] at h
    exact absurd h Bool.false_ne_true
  | some e =>
    exact ⟨e, List.mem_of_find?_eq_some hfind, by simpa using List.find?_some hfind⟩

/-- An order in the list contributes at least its quantity to the
tally under its own id. -/
theorem ordersQty_lower (oid : Nat) (l : List Order) (o : Order) (ho : o ∈ l)
    (hid : o.order_id = oid) : o.quantity ≤ ordersQty oid l := by
  induction l with
  | nil => simp at ho
  | cons o1 rest ih =>
    rw [ordersQty_cons]
    rcases List.mem_cons.mp ho with ho | ho
    · subst ho
      rw [if_pos hid]
      omega
    · have := ih ho
      split <;> omega

/-- A successful cancel clears the target id from the book entirely
and removes exactly its entries from the index. -/
theorem cancel_success (b : OrderBook) (hb : Inv b) (oid : Nat)
    (hc : (cancelOrder b oid).1 = true) :
    bookQty oid (cancelOrder b oid).2 = 0
  ∧ (∀ x, x ∈ (cancelOrder b oid).2.order_map ↔ (x ∈ b.order_map ∧ x.1 ≠ oid)) := by
  cases hfind : b.order_map.find? (fun e => e.1 == oid) with
  | none =>
    rw [cancelOrder, hfind] at hc
    exact absurd hc Bool.false_ne_true
  | some e =>
    have hmem : e ∈ b.order_map := List.mem_of_find?_eq_some hfind
    have hpe : e.1 = oid := by simpa using List.find?_some hfind
    obtain ⟨o0, ho0, hoid0, hop0⟩ := hb.mapToBook e hmem
    have hndAll := hb.nodupIds
    have hdis : (sideIds b.bids).Disjoint (sideIds b.asks) := by
      have := hb.nodupIds
      rw [allIds_eq] at this
      exact List.disjoint_of_nodup_append this
    cases hside : e.2.1 with
    | BUY =>
      rw [hside] at ho0
      replace ho0 : o0 ∈ sideOrders b.bids := ho0
      have hkeysnd : (b.bids.map Prod.fst).Nodup := hb.keysB.imp (fun h => ne_of_lt h)
      have hloc : ∀ lv ∈ b.bids, ∀ o1 ∈ lv.2, o1.order_id = oid → lv.1 = e.2.2 := by
        intro lv hlv o1 h1 hid
        have h1a : o1 ∈ allOrders b :=
          List.mem_append.mpr (Or.inl (mem_sideOrders_of b.bids lv o1 hlv h1))
        have h0a : o0 ∈ allOrders b := List.mem_append.mpr (Or.inl ho0)
        have heq : o1 = o0 :=
          List.inj_on_of_nodup_map hndAll h1a h0a (by rw [hid, hoid0, hpe])
        rw [← hb.wfB lv hlv o1 h1, heq, hop0]
      have hrm := removeFromSide_removes e.2.2 oid b.bids hkeysnd hloc
      simp only [cancelOrder, hfind, hside]
      constructor
      · have h1 : ordersQty oid (sideOrders (removeFromSide e.2.2 oid b.bids)) = 0 :=
          ordersQty_eq_zero _ _ hrm
        have h2 : ordersQty oid (sideOrders b.asks) = 0 := by
          refine ordersQty_eq_zero _ _ (fun o1 ha hid => ?_)
          have hbid : oid ∈ sideIds b.bids := by
            rw [sideIds, ← hpe, ← hoid0]
            exact List.mem_map_of_mem Order.order_id ho0
          have hask : oid ∈ sideIds b.asks := by
            rw [sideIds, ← hid]
            exact List.mem_map_of_mem Order.order_id ha
          exact hdis hbid hask
        show ordersQty oid (sideOrders (removeFromSide e.2.2 oid b.bids)
            ++ sideOrders b.asks) = 0
        rw [ordersQty_append, h1, h2]
      · intro x
        show x ∈ b.order_map.eraseP (fun y => y.1 == oid) ↔ _
        exact eraseP_mem_nodup b.order_map oid hb.mapNodup x
    | SELL =>
      rw [hside] at ho0
      replace ho0 : o0 ∈ sideOrders b.asks := ho0
      have hkeysnd : (b.asks.map Prod.fst).Nodup :=
        hb.keysA.imp (fun h => (ne_of_lt h).symm)
      have hloc : ∀ lv ∈ b.asks, ∀ o1 ∈ lv.2, o1.order_id = oid → lv.1 = e.2.2 := by
        intro lv hlv o1 h1 hid
        have h1a : o1 ∈ allOrders b :=
          List.mem_append.mpr (Or.inr (mem_sideOrders_of b.asks lv o1 hlv h1))
        have h0a : o0 ∈ allOrders b := List.mem_append.mpr (Or.inr ho0)
        have heq : o1 = o0 :=
          List.inj_on_of_nodup_map hndAll h1a h0a (by rw [hid, hoid0, hpe])
        rw [← hb.wfA lv hlv o1 h1, heq, hop0]
      have hrm := removeFromSide_removes e.2.2 oid b.asks hkeysnd hloc
      simp only [cancelOrder, hfind, hside]
      constructor
      · have h1 : ordersQty oid (sideOrders (removeFromSide e.2.2 oid b.asks)) = 0 :=
          ordersQty_eq_zero _ _ hrm
        have h2 : ordersQty oid (sideOrders b.bids) = 0 := by
          refine ordersQty_eq_zero _ _ (fun o1 ha hid => ?_)
          have hask : oid ∈ sideIds b.asks := by
            rw [sideIds, ← hpe, ← hoid0]
            exact List.mem_map_of_mem Order.order_id ho0
          have hbid : oid ∈ sideIds b.bids := by
            rw [sideIds, ← hid]
            exact List.mem_map_of_mem Order.order_id ha
          exact hdis hbid hask
        show ordersQty oid (sideOrders b.bids
            ++ sideOrders (removeFromSide e.2.2 oid b.asks)) = 0
        rw [ordersQty_append, h1, h2]
      · intro x
        show x ∈ b.order_map.eraseP (fun y => y.1 == oid) ↔ _
        exact eraseP_mem_nodup b.order_map oid hb.mapNodup x

/-- The conservation invariant of instrumented runs: for every
accepted order, fills naming it plus its current resting quantity plus
what was removed by cancels plus what was dropped as market residual
equals its submitted quantity; all ghost ids predate the id counter;
cancelled ids never reappear in the index. -/
structure GInv (g : GState) : Prop where
  inv : Inv g.book
  conserve : ∀ e ∈ g.accepted,
    tradesQtyNaming e.1 g.book.trade_history + bookQty e.1 g.book
      + removedSum e.1 g.cancelled + removedSum e.1 g.discarded = e.2
  accLt : ∀ e ∈ g.accepted, e.1 < g.book.next_order_id
  canLt : ∀ e ∈ g.cancelled, e.1 < g.book.next_order_id
  disLt : ∀ e ∈ g.discarded, e.1 < g.book.next_order_id
  canNotMap : ∀ e ∈ g.cancelled, ∀ x ∈ g.book.order_map, x.1 ≠ e.1

theorem ginv_init : GInv ginit := by
  refine ⟨inv_empty, ?_, ?_, ?_, ?_, ?_⟩ <;> simp [ginit]

theorem ginv_step (g : GState) (hg : GInv g) (c : Command) : GInv (gstep g c) := by
  cases c with
  | add sd ty p q =>
    obtain ⟨T, hhist, hnext, hpass, hnames, hfreshq, hmapids⟩ :=
      addOrder_accounting g.book hg.inv sd ty p q
    have hid := addOrderFull_id g.book sd ty p q
    have hold0 : tradesQtyNaming g.book.next_order_id g.book.trade_history = 0 :=
      tradesQtyNaming_eq_zero _ _ (fun t ht =>
        ⟨Nat.ne_of_lt (hg.inv.trLt t ht).1, Nat.ne_of_lt (hg.inv.trLt t ht).2⟩)
    have hcan0 : removedSum g.book.next_order_id g.cancelled = 0 :=
      removedSum_eq_zero _ _ (fun e he => Nat.ne_of_lt (hg.canLt e he))
    have hdis0 : removedSum g.book.next_order_id g.discarded = 0 :=
      removedSum_eq_zero _ _ (fun e he => Nat.ne_of_lt (hg.disLt e he))
    cases ty with
    | MARKET =>
      refine ⟨inv_addOrderFull g.book hg.inv sd .MARKET p q, ?_, ?_, ?_, ?_, ?_⟩
      · intro e he
        replace he : e ∈ g.accepted
            ++ [((addOrderFull g.book sd .MARKET p q).id, q)] := he
        show tradesQtyNaming e.1 (addOrderFull g.book sd .MARKET p q).book.trade_history
            + bookQty e.1 (addOrderFull g.book sd .MARKET p q).book
            + removedSum e.1 g.cancelled
            + removedSum e.1 (g.discarded
                ++ [((addOrderFull g.book sd .MARKET p q).id,
                     (addOrderFull g.book sd .MARKET p q).leftover)]) = e.2
        rw [hhist, hid, tradesQtyNaming_append, removedSum_append_singleton]
        rcases List.mem_append.mp he with he | he
        · have hne : e.1 ≠ g.book.next_order_id := Nat.ne_of_lt (hg.accLt e he)
          have hc := hg.conserve e he
          have h1 := hpass e.1 hne
          rw [if_neg (fun hh => hne hh.symm)]
          omega
        · rw [List.mem_singleton] at he
          have he1 : e.1 = g.book.next_order_id := by rw [he]; exact hid
          have he2 : e.2 = q := by rw [he]
          have hfq : tradesQtyNaming g.book.next_order_id T
              + bookQty g.book.next_order_id (addOrderFull g.book sd .MARKET p q).book
              + (addOrderFull g.book sd .MARKET p q).leftover = q := hfreshq
          rw [he1, he2, if_pos rfl, hold0, hcan0, hdis0]
          omega
      · intro e he
        replace he : e ∈ g.accepted
            ++ [((addOrderFull g.book sd .MARKET p q).id, q)] := he
        show e.1 < (addOrderFull g.book sd .MARKET p q).book.next_order_id
        rw [hnext]
        rcases List.mem_append.mp he with he | he
        · exact Nat.lt_succ_of_lt (hg.accLt e he)
        · rw [List.mem_singleton] at he
          subst he
          show (addOrderFull g.book sd .MARKET p q).id < g.book.next_order_id + 1
          rw [hid]
          exact Nat.lt_succ_self _
      · intro e he
        replace he : e ∈ g.cancelled := he
        show e.1 < (addOrderFull g.book sd .MARKET p q).book.next_order_id
        rw [hnext]
        exact Nat.lt_succ_of_lt (hg.canLt e he)
      · intro e he
        replace he : e ∈ g.discarded
            ++ [((addOrderFull g.book sd .MARKET p q).id,
                 (addOrderFull g.book sd .MARKET p q).leftover)] := he
        show e.1 < (addOrderFull g.book sd .MARKET p q).book.next_order_id
        rw [hnext]
        rcases List.mem_append.mp he with he | he
        · exact Nat.lt_succ_of_lt (hg.disLt e he)
        · rw [List.mem_singleton] at he
          subst he
          show (addOrderFull g.book sd .MARKET p q).id < g.book.next_order_id + 1
          rw [hid]
          exact Nat.lt_succ_self _
      · intro e he x hx
        replace he : e ∈ g.cancelled := he
        replace hx : x ∈ (addOrderFull g.book sd .MARKET p q).book.order_map := hx
        rcases hmapids x hx with ⟨e0, he0, he0id⟩ | hxid
        · rw [← he0id]
          exact hg.canNotMap e he e0 he0
        · rw [hxid]
          exact fun hh => absurd hh.symm (Nat.ne_of_lt (hg.canLt e he))
    | LIMIT =>
      refine ⟨inv_addOrderFull g.book hg.inv sd .LIMIT p q, ?_, ?_, ?_, ?_, ?_⟩
      · intro e he
        replace he : e ∈ g.accepted
            ++ [((addOrderFull g.book sd .LIMIT p q).id, q)] := he
        show tradesQtyNaming e.1 (addOrderFull g.book sd .LIMIT p q).book.trade_history
            + bookQty e.1 (addOrderFull g.book sd .LIMIT p q).book
            + removedSum e.1 g.cancelled
            + removedSum e.1 g.discarded = e.2
        rw [hhist, tradesQtyNaming_append]
        rcases List.mem_append.mp he with he | he
        · have hne : e.1 ≠ g.book.next_order_id := Nat.ne_of_lt (hg.accLt e he)
          have hc := hg.conserve e he
          have h1 := hpass e.1 hne
          omega
        · rw [List.mem_singleton] at he
          have he1 : e.1 = g.book.next_order_id := by rw [he]; exact hid
          have he2 : e.2 = q := by rw [he]
          have hfq : tradesQtyNaming g.book.next_order_id T
              + bookQty g.book.next_order_id (addOrderFull g.book sd .LIMIT p q).book
              + 0 = q := hfreshq
          rw [he1, he2, hold0, hcan0, hdis0]
          omega
      · intro e he
        replace he : e ∈ g.accepted
            ++ [((addOrderFull g.book sd .LIMIT p q).id, q)] := he
        show e.1 < (addOrderFull g.book sd .LIMIT p q).book.next_order_id
        rw [hnext]
        rcases List.mem_append.mp he with he | he
        · exact Nat.lt_succ_of_lt (hg.accLt e he)
        · rw [List.mem_singleton] at he
          subst he
          show (addOrderFull g.book sd .LIMIT p q).id < g.book.next_order_id + 1
          rw [hid]
          exact Nat.lt_succ_self _
      · intro e he
        replace he : e ∈ g.cancelled := he
        show e.1 < (addOrderFull g.book sd .LIMIT p q).book.next_order_id
        rw [hnext]
        exact Nat.lt_succ_of_lt (hg.canLt e he)
      · intro e he
        replace he : e ∈ g.discarded := he
        show e.1 < (addOrderFull g.book sd .LIMIT p q).book.next_order_id
        rw [hnext]
        exact Nat.lt_succ_of_lt (hg.disLt e he)
      · intro e he x hx
        replace he : e ∈ g.cancelled := he
        replace hx : x ∈ (addOrderFull g.book sd .LIMIT p q).book.order_map := hx
        rcases hmapids x hx with ⟨e0, he0, he0id⟩ | hxid
        · rw [← he0id]
          exact hg.canNotMap e he e0 he0
        · rw [hxid]
          exact fun hh => absurd hh.symm (Nat.ne_of_lt (hg.canLt e he))
  | cancel oid =>
    obtain ⟨htr, hnx, hother, hmono, hmapsub, htruemap, hfalse⟩ :=
      cancel_accounting g.book hg.inv oid
    simp only [gstep]
    split
    · next hc =>
      have hoidlt : oid < g.book.next_order_id := by
        obtain ⟨e0, he0, he0id⟩ := cancelOrder_true_mem g.book oid hc
        rw [← he0id]
        exact hg.inv.mapLt e0 he0
      refine ⟨inv_cancelOrder g.book hg.inv oid, ?_, ?_, ?_, ?_, ?_⟩
      · intro e he
        replace he : e ∈ g.accepted := he
        have hcons := hg.conserve e he
        show tradesQtyNaming e.1 (cancelOrder g.book oid).2.trade_history
            + bookQty e.1 (cancelOrder g.book oid).2
            + removedSum e.1 (g.cancelled
                ++ [(oid, bookQty oid g.book - bookQty oid (cancelOrder g.book oid).2)])
            + removedSum e.1 g.discarded = e.2
        rw [htr, removedSum_append_singleton]
        by_cases hje : oid = e.1
        · rw [if_pos hje]
          subst hje
          omega
        · rw [if_neg hje]
          have := hother e.1 (fun hh => hje hh.symm)
          omega
      · intro e he
        replace he : e ∈ g.accepted := he
        show e.1 < (cancelOrder g.book oid).2.next_order_id
        rw [hnx]
        exact hg.accLt e he
      · intro e he
        replace he : e ∈ g.cancelled
            ++ [(oid, bookQty oid g.book - bookQty oid (cancelOrder g.book oid).2)] := he
        show e.1 < (cancelOrder g.book oid).2.next_order_id
        rw [hnx]
        rcases List.mem_append.mp he with he | he
        · exact hg.canLt e he
        · rw [List.mem_singleton] at he
          subst he
          exact hoidlt
      · intro e he
        replace he : e ∈ g.discarded := he
        show e.1 < (cancelOrder g.book oid).2.next_order_id
        rw [hnx]
        exact hg.disLt e he
      · intro e he x hx
        replace he : e ∈ g.cancelled
            ++ [(oid, bookQty oid g.book - bookQty oid (cancelOrder g.book oid).2)] := he
        replace hx : x ∈ (cancelOrder g.book oid).2.order_map := hx
        rcases List.mem_append.mp he with he | he
        · obtain ⟨e0, he0, he0id⟩ := hmapsub x hx
          rw [← he0id]
          exact hg.canNotMap e he e0 he0
        · rw [List.mem_singleton] at he
          subst he
          exact htruemap hc x hx
    · next hc =>
      have hb2 : (cancelOrder g.book oid).2 = g.book := hfalse (by simpa using hc)
      refine ⟨?_, ?_, ?_, ?_, ?_, ?_⟩
      · show Inv (cancelOrder g.book oid).2
        rw [hb2]
        exact hg.inv
      · intro e he
        replace he : e ∈ g.accepted := he
        show tradesQtyNaming e.1 (cancelOrder g.book oid).2.trade_history
            + bookQty e.1 (cancelOrder g.book oid).2
            + removedSum e.1 g.cancelled + removedSum e.1 g.discarded = e.2
        rw [hb2]
        exact hg.conserve e he
      · intro e he
        replace he : e ∈ g.accepted := he
        show e.1 < (cancelOrder g.book oid).2.next_order_id
        rw [hb2]
        exact hg.accLt e he
      · intro e he
        replace he : e ∈ g.cancelled := he
        show e.1 < (cancelOrder g.book oid).2.next_order_id
        rw [hb2]
        exact hg.canLt e he
      · intro e he
        replace he : e ∈ g.discarded := he
        show e.1 < (cancelOrder g.book oid).2.next_order_id
        rw [hb2]
        exact hg.disLt e he
      · intro e he x hx
        replace he : e ∈ g.cancelled := he
        replace hx : x ∈ (cancelOrder g.book oid).2.order_map := hx
        rw [hb2] at hx
        exact hg.canNotMap e he x hx

theorem foldl_ginv (cmds : List Command) (g : GState) (hg : GInv g) :
    GInv (cmds.foldl gstep g) := by
  induction cmds generalizing g with
  | nil => exact hg
  | cons c rest ih => exact ih (gstep g c) (ginv_step g hg c)

/-- Every instrumented run satisfies the conservation invariant. -/
theorem grun_ginv (cmds : List Command) : GInv (grun cmds) :=
  foldl_ginv cmds ginit ginv_init

/-- A cancel whose target id is absent from the index is a no-op
returning `false`. -/
theorem cancelOrder_none_of_absent (b : OrderBook) (oid : Nat)
    (h : ∀ x ∈ b.order_map, x.1 ≠ oid) : cancelOrder b oid = (false, b) := by
  have hfind : b.order_map.find? (fun e => e.1 == oid) = none :=
    List.find?_eq_none.mpr (fun x hx => by simpa using h x hx)
  simp only [cancelOrder, hfind]

/-- The command sequence used to instantiate the conservation law: a
resting ask of 100 at 100.50 swept by a market buy of 250, which fills
100 and discards the 150 residual. -/
def c9Cmds : List Command :=
  [Command.add .SELL .LIMIT (mkRat 10050 100) 100,
   Command.add .BUY .MARKET 0 250]

/-- C9: quantity conservation. For every order accepted by `addOrder`
during a run, the total quantity of emitted trades naming its id, plus
its current resting remaining quantity (zero if not resting), plus the
remaining quantity removed by cancellation, plus the quantity discarded
as unfilled market residual, equals the order's initial quantity. -/
theorem C9_quantity_conservation (cmds : List Command) (oid q0 : Nat)
    (hacc : (oid, q0) ∈ (grun cmds).accepted) :
    tradesQtyNaming oid (run cmds).trade_history + bookQty oid (run cmds)
      + removedSum oid (grun cmds).cancelled
      + removedSum oid (grun cmds).discarded = q0 := by
  have h := (grun_ginv cmds).conserve (oid, q0) hacc
  rw [grun_book] at h
  exact h

theorem C9_quantity_conservation_witness :
    ((2 : Nat), (250 : Nat)) ∈ (grun c9Cmds).accepted
  ∧ tradesQtyNaming 2 (run c9Cmds).trade_history + bookQty 2 (run c9Cmds)
      + removedSum 2 (grun c9Cmds).cancelled
      + removedSum 2 (grun c9Cmds).discarded = 250 :=
  ⟨by decide, C9_quantity_conservation c9Cmds 2 250 (by decide)⟩

/-- C7: `cancelOrder` returns `false` and leaves the state unchanged
when the target id is absent from the index — which covers an unknown
id, an id already fully filled, and a previously cancelled id — and
when it returns `true` it removes the order's resting remainder from
the book and the index, emits no trade, and leaves every other id's
resting quantity and index presence intact. -/
theorem C7_cancel_semantics (cmds : List Command) (oid : Nat) :
    ((∀ x ∈ (run cmds).order_map, x.1 ≠ oid) →
      cancelOrder (run cmds) oid = (false, run cmds))
  ∧ (∀ q0, (oid, q0) ∈ (grun cmds).accepted →
      tradesQtyNaming oid (run cmds).trade_history = q0 →
      cancelOrder (run cmds) oid = (false, run cmds))
  ∧ (∀ d, (oid, d) ∈ (grun cmds).cancelled →
      cancelOrder (run cmds) oid = (false, run cmds))
  ∧ ((cancelOrder (run cmds) oid).1 = true →
      (cancelOrder (run cmds) oid).2.trade_history = (run cmds).trade_history
      ∧ bookQty oid (cancelOrder (run cmds) oid).2 = 0
      ∧ (∀ x ∈ (cancelOrder (run cmds) oid).2.order_map, x.1 ≠ oid)
      ∧ (∀ j, j ≠ oid →
          bookQty j (cancelOrder (run cmds) oid).2 = bookQty j (run cmds)
          ∧ ((∃ x ∈ (cancelOrder (run cmds) oid).2.order_map, x.1 = j)
              ↔ (∃ x ∈ (run cmds).order_map, x.1 = j)))) := by
  have hg := grun_ginv cmds
  have hinv : Inv (run cmds) := grun_book cmds ▸ hg.inv
  refine ⟨?_, ?_, ?_, ?_⟩
  · exact cancelOrder_none_of_absent (run cmds) oid
  · intro q0 hacc hfull
    have hcons0 := hg.conserve (oid, q0) hacc
    rw [grun_book] at hcons0
    replace hcons0 : tradesQtyNaming oid (run cmds).trade_history
        + bookQty oid (run cmds)
        + removedSum oid (grun cmds).cancelled
        + removedSum oid (grun cmds).discarded = q0 := hcons0
    have hbq : bookQty oid (run cmds) = 0 := by omega
    refine cancelOrder_none_of_absent (run cmds) oid ?_
    intro x hx hxid
    obtain ⟨o, ho, hid, -⟩ := hinv.mapToBook x hx
    have hoa : o ∈ allOrders (run cmds) := by
      cases hs : x.2.1 with
      | BUY =>
        rw [hs] at ho
        replace ho : o ∈ sideOrders (run cmds).bids := ho
        exact List.mem_append.mpr (Or.inl ho)
      | SELL =>
        rw [hs] at ho
        replace ho : o ∈ sideOrders (run cmds).asks := ho
        exact List.mem_append.mpr (Or.inr ho)
    have hpos := hinv.posQty o hoa
    have hlow := ordersQty_lower oid (allOrders (run cmds)) o hoa (by rw [hid, hxid])
    have hbq2 : ordersQty oid (allOrders (run cmds)) = 0 := hbq
    omega
  · intro d hcan
    have h := hg.canNotMap (oid, d) hcan
    refine cancelOrder_none_of_absent (run cmds) oid ?_
    intro x hx
    have hx2 : x ∈ (grun cmds).book.order_map := by rw [grun_book]; exact hx
    exact h x hx2
  · intro hc
    obtain ⟨htr, hnx, hother, hmono, hmapsub, htruemap, hfalse⟩ :=
      cancel_accounting (run cmds) hinv oid
    obtain ⟨hzero, hmapiff⟩ := cancel_success (run cmds) hinv oid hc
    refine ⟨htr, hzero, htruemap hc, ?_⟩
    intro j hj
    refine ⟨hother j hj, ?_, ?_⟩
    · rintro ⟨x, hx, hxj⟩
      exact ⟨x, ((hmapiff x).mp hx).1, hxj⟩
    · rintro ⟨x, hx, hxj⟩
      exact ⟨x, (hmapiff x).mpr ⟨hx, by rw [hxj]; exact hj⟩, hxj⟩

/-- The command sequence used to instantiate the cancel semantics: a
single resting bid of 10 at 100.30 under id 1. -/
def c7Cmds : List Command :=
  [Command.add .BUY .LIMIT (mkRat 10030 100) 10]

theorem C7_cancel_semantics_witness :
    cancelOrder (run c7Cmds) 99 = (false, run c7Cmds)
  ∧ (cancelOrder (run c7Cmds) 1).1 = true
  ∧ (cancelOrder (run c7Cmds) 1).2.trade_history = (run c7Cmds).trade_history
  ∧ bookQty 1 (cancelOrder (run c7Cmds) 1).2 = 0
  ∧ (∀ x ∈ (cancelOrder (run c7Cmds) 1).2.order_map, x.1 ≠ 1) := by
  have h4 := (C7_cancel_semantics c7Cmds 1).2.2.2 (by decide)
  exact ⟨(C7_cancel_semantics c7Cmds 99).1 (by decide), by decide,
    h4.1, h4.2.1, h4.2.2.1⟩

end OBook
